import Mathlib

/-! group-by-genre: the genre organiser of `src/main.go`

A shallow embedding of the program in `src/main.go` and of the parts of the Go
standard library it calls, followed by theorems about the placement policy,
the candidate filter, the walk and the prompt.

What lies outside the repository is modelled as follows.

* Go strings are lists of runes (`Str`), that is, valid UTF-8. The Unicode
  tables behind `unicode.IsLetter`, `unicode.IsDigit`, `unicode.ToTitle` and
  `unicode.ToLower` are a parameter (`UnicodeTables`), consulted only for runes
  above U+007F, as the Go functions do.
* `filepath.Clean` is given by the four rules of its documentation, applied to
  the elements of the path; `filepath.Join`, `filepath.Ext`, `strings.Title`,
  `os.MkdirAll` and `filepath.WalkDir` follow their Go sources;
  `strings.TrimSpace` and `strings.ToLower` are given by their documented
  result.
* The file system is a finite map from absolute locations to files and
  directories, without symbolic links, with the behaviour of `stat`, `mkdir`
  and `rename` on a POSIX system; `..` is resolved lexically. A directory has
  one permission bit. The tag reader is a parameter: a function from the
  content of a file to its genre or an error.
* The program acts on a `World`: the file system, the working directory and a
  record of the calls that open, create or move something. Printing is left
  out.
* The recursion of the walk follows the directory tree as the walk finds it,
  so it is bounded by `fuel`; `organise_total` shows that every run returns
  once the fuel exceeds `depthBound`.
-/

namespace GroupByGenre

/-- A Go string, seen as its sequence of runes. -/
abbrev Str := List Char

/-! ## Constants (`src/main.go`, lines 17-22) -/

def Genres : Str := ['G', 'e', 'n', 'r', 'e', 's']
def NoGenre : Str := ['N', 'o', ' ', 'G', 'e', 'n', 'r', 'e']
def Duplicates : Str := ['D', 'u', 'p', 'l', 'i', 'c', 'a', 't', 'e']
def MusicPath : Str := ['M', 'u', 's', 'i', 'c']

/-! ## Package `unicode` and `strings` -/

/-- The tables of package `unicode` for runes above U+007F. -/
structure UnicodeTables where
  isLetter : Char → Bool
  isDigit : Char → Bool
  toTitle : Char → Char
  toLower : Char → Char

/-- Tables that know no letter above U+007F; used to evaluate ASCII examples. -/
def asciiTables : UnicodeTables :=
  ⟨fun _ => false, fun _ => false, fun c => c, fun c => c⟩

/-- Go `unicode.IsSpace`: the Unicode White_Space property. -/
def IsSpace (r : Char) : Bool :=
  let n := r.toNat
  n = 0x09 || n = 0x0A || n = 0x0B || n = 0x0C || n = 0x0D || n = 0x20 ||
  n = 0x85 || n = 0xA0 || n = 0x1680 || (0x2000 ≤ n && n ≤ 0x200A) ||
  n = 0x2028 || n = 0x2029 || n = 0x202F || n = 0x205F || n = 0x3000

def isAsciiLower (r : Char) : Bool := 'a'.toNat ≤ r.toNat && r.toNat ≤ 'z'.toNat
def isAsciiUpper (r : Char) : Bool := 'A'.toNat ≤ r.toNat && r.toNat ≤ 'Z'.toNat
def isAsciiDigit (r : Char) : Bool := '0'.toNat ≤ r.toNat && r.toNat ≤ '9'.toNat

/-- Go `unicode.ToTitle`: for ASCII, title case is upper case. -/
def ToTitle (U : UnicodeTables) (r : Char) : Char :=
  if r.toNat ≤ 0x7F then
    if isAsciiLower r then Char.ofNat (r.toNat - 32) else r
  else U.toTitle r

/-- Go `unicode.ToLower`, as used rune by rune by `strings.ToLower`. -/
def toLowerRune (U : UnicodeTables) (r : Char) : Char :=
  if r.toNat ≤ 0x7F then
    if isAsciiUpper r then Char.ofNat (r.toNat + 32) else r
  else U.toLower r

/-- Go `strings.ToLower`. -/
def ToLower (U : UnicodeTables) (s : Str) : Str := s.map (toLowerRune U)

/-- Go `strings.isSeparator`: ASCII alphanumerics and underscore are not
separators; above ASCII, letters and digits are not, and spaces are. -/
def isSeparator (U : UnicodeTables) (r : Char) : Bool :=
  if r.toNat ≤ 0x7F then
    if isAsciiDigit r then false
    else if isAsciiLower r then false
    else if isAsciiUpper r then false
    else if r = '_' then false
    else true
  else if U.isLetter r || U.isDigit r then false
  else IsSpace r

/-- The closure of Go `strings.Title` mapped over the runes, with the
remembered previous rune `prev` made explicit. -/
def titleFrom (U : UnicodeTables) : Char → Str → Str
  | _, [] => []
  | prev, r :: rs =>
    (if isSeparator U prev then ToTitle U r else r) :: titleFrom U r rs

/-- Go `strings.Title`. -/
def Title (U : UnicodeTables) (s : Str) : Str := titleFrom U ' ' s

/-- The function `capitalize` of `src/main.go` (lines 127-129). -/
def capitalize (U : UnicodeTables) (s : Str) : Str := Title U s

/-- Go `strings.HasPrefix`. -/
def HasPrefix (s pre : Str) : Bool := pre.isPrefixOf s

/-- Go `strings.TrimSpace`: leading and trailing white space removed. -/
def TrimSpace (s : Str) : Str :=
  (((s.dropWhile IsSpace).reverse).dropWhile IsSpace).reverse

/-- Go `bufio.Reader.ReadString`: the input up to and including the first
occurrence of `delim`, or all of it when `delim` does not occur. -/
def ReadString (delim : Char) : Str → Str
  | [] => []
  | c :: cs => if c = delim then [c] else c :: ReadString delim cs

/-! ## Package `path/filepath` (Unix) -/

/-- The elements of a path between separators, empty elements included. -/
def splitSep : Str → List Str
  | [] => [[]]
  | c :: cs =>
    if c = '/' then [] :: splitSep cs
    else
      match splitSep cs with
      | [] => [[c]]
      | e :: es => (c :: e) :: es

def dot : Str := ['.']
def dotdot : Str := ['.', '.']

/-- One element of the lexical processing done by Go `filepath.Clean`; the
elements kept so far are held most recent first. Empty and `.` elements are
dropped; `..` removes the preceding element unless there is none (dropped when
the path is rooted, kept otherwise) or it is itself `..`. -/
def cleanStep (rooted : Bool) (stack : List Str) (e : Str) : List Str :=
  if e = [] ∨ e = dot then stack
  else if e = dotdot then
    match stack with
    | [] => if rooted then [] else [dotdot]
    | top :: rest => if top = dotdot then dotdot :: top :: rest else rest
  else e :: stack

/-- Whether a path starts with the separator. -/
def isRooted (path : Str) : Bool := path.head? = some '/'

/-- The elements of the cleaned path, in order. -/
def cleanElems (path : Str) : List Str :=
  ((splitSep path).foldl (cleanStep (isRooted path)) []).reverse

/-- Elements joined with single separators. -/
def joinSep : List Str → Str
  | [] => []
  | [e] => e
  | e :: es => e ++ '/' :: joinSep es

/-- Go `filepath.Clean`: the shortest path equivalent to `path` by purely
lexical processing; `/` for the root, `.` for the empty result. -/
def Clean (path : Str) : Str :=
  if isRooted path then '/' :: joinSep (cleanElems path)
  else
    match cleanElems path with
    | [] => dot
    | es => joinSep es

/-- Go `strings.Join(elems, "/")`. -/
def joinRaw : List Str → Str
  | [] => []
  | [e] => e
  | e :: es => e ++ '/' :: joinRaw es

/-- Go `filepath.Join`: leading empty elements are ignored, the rest is
joined with separators and cleaned; the result is empty when all are empty. -/
def Join : List Str → Str
  | [] => []
  | e :: es => if e ≠ [] then Clean (joinRaw (e :: es)) else Join es

/-- The scan of Go `filepath.Ext`, from the end of the path backwards: `rev`
is what is still to be scanned, `acc` what has been passed. -/
def extScan : Str → Str → Str
  | [], _ => []
  | c :: rev, acc =>
    if c = '/' then [] else if c = '.' then '.' :: acc else extScan rev (c :: acc)

/-- Go `filepath.Ext`: the suffix beginning at the final dot in the final
element of `path`; empty if there is no dot. -/
def Ext (path : Str) : Str := extScan path.reverse []

/-- The first loop of Go `os.basename`, on the reversed name: trailing slashes
are removed, but never the first character of the name. -/
def dropTrailingSlashes : Str → Str
  | [] => []
  | [c] => [c]
  | c :: rest => if c = '/' then dropTrailingSlashes rest else c :: rest

/-- Go `os.basename` (Unix), which names the entry `os.Lstat` returns:
trailing slashes removed, then the leading directory removed. -/
def basename (name : Str) : Str :=
  match dropTrailingSlashes name.reverse with
  | [] => []
  | last :: before => (last :: before.takeWhile (· ≠ '/')).reverse

/-- Go `fs.ValidPath` for the name handed to an `fs.FS`: a single `.`, or
non-empty elements other than `.` and `..` separated by single slashes. -/
def ValidPath (name : Str) : Bool :=
  name = dot || (splitSep name).all (fun e => e ≠ [] && e ≠ dot && e ≠ dotdot)

/-- A directory entry name: not empty, without separator, neither `.` nor `..`. -/
def plainName (n : Str) : Bool :=
  n ≠ [] && !n.contains '/' && n ≠ dot && n ≠ dotdot

/-! ## The file system

Locations are absolute: the list of directory entry names from the root
directory down. There are no symbolic links. A directory carries one
permission bit, whether entries may be created in it or removed from it. -/

/-- A location: the names from the root directory down. -/
abbrev Loc := List Str

/-- What a location holds: a regular file with its content, or a directory
that may or may not be written to. -/
inductive Node
  | file (content : Nat)
  | dir (writable : Bool)
  deriving DecidableEq, Repr

def Node.isDir : Node → Bool
  | .file _ => false
  | .dir _ => true

/-- The error numbers of the system calls modelled. Go `os.IsNotExist` and
`errors.Is(err, fs.ErrNotExist)` hold of `ENOENT` only. -/
inductive Errno
  | ENOENT | ENOTDIR | EISDIR | EACCES | EEXIST | ENOTEMPTY | EINVAL
  deriving DecidableEq, Repr

/-- A file system: location and node, the first entry for a location counts. -/
abbrev FS := List (Loc × Node)

def fsLookup : FS → Loc → Option Node
  | [], _ => none
  | (k, n) :: rest, l => if k = l then some n else fsLookup rest l

def fsRemove (fs : FS) (l : Loc) : FS := fs.filter (fun kn => kn.1 ≠ l)

def fsSet (fs : FS) (l : Loc) (n : Node) : FS := (l, n) :: fsRemove fs l

/-- One element of path resolution; the location reached so far is held
deepest name first. The parent of the root directory is the root directory. -/
def resolveStep (stack : List Str) (e : Str) : List Str :=
  if e = [] ∨ e = dot then stack
  else if e = dotdot then stack.tail
  else e :: stack

/-- The location a path names for a process whose working directory is `cwd`. -/
def resolve (cwd : Loc) (path : Str) : Loc :=
  ((splitSep path).foldl resolveStep (if isRooted path then [] else cwd.reverse)).reverse

/-- Look up the node `rest` below `pre`; every directory on the way must
exist and be a directory. -/
def statFrom (fs : FS) : Loc → List Str → Except Errno Node
  | pre, [] =>
    match fsLookup fs pre with
    | some n => .ok n
    | none => .error .ENOENT
  | pre, c :: cs =>
    match fsLookup fs pre with
    | some (.dir _) => statFrom fs (pre ++ [c]) cs
    | some (.file _) => .error .ENOTDIR
    | none => .error .ENOENT

def statLoc (fs : FS) (l : Loc) : Except Errno Node := statFrom fs [] l

/-- The system call `mkdir(2)`. -/
def mkdirLoc (fs : FS) (l : Loc) : FS × Option Errno :=
  match statLoc fs l.dropLast with
  | .error e => (fs, some e)
  | .ok (.file _) => (fs, some .ENOTDIR)
  | .ok (.dir w) =>
    if l = [] ∨ (fsLookup fs l).isSome then (fs, some .EEXIST)
    else if w then (fsSet fs l (.dir true), none)
    else (fs, some .EACCES)

/-- Go `os.MkdirAll` on the location a cleaned path names, given deepest
name first: nothing to do for a directory, an error for a file, otherwise the
parent is made first and then the directory itself. -/
def mkdirAllRev (fs : FS) : List Str → FS × Option Errno
  | [] =>
    match statLoc fs [] with
    | .ok (.dir _) => (fs, none)
    | .ok (.file _) => (fs, some .ENOTDIR)
    | .error _ => mkdirLoc fs []
  | c :: parent =>
    match statLoc fs (c :: parent).reverse with
    | .ok (.dir _) => (fs, none)
    | .ok (.file _) => (fs, some .ENOTDIR)
    | .error _ =>
      match mkdirAllRev fs parent with
      | (fs1, some e) => (fs1, some e)
      | (fs1, none) =>
        match mkdirLoc fs1 (c :: parent).reverse with
        | (fs2, none) => (fs2, none)
        | (fs2, some e) =>
          match statLoc fs2 (c :: parent).reverse with
          | .ok (.dir _) => (fs2, none)
          | _ => (fs2, some e)

def mkdirAllLoc (fs : FS) (l : Loc) : FS × Option Errno := mkdirAllRev fs l.reverse

/-- Whether some entry lies strictly below `l`. -/
def hasChildren (fs : FS) (l : Loc) : Bool :=
  fs.any (fun kn => l.isPrefixOf kn.1 && kn.1 ≠ l)

/-- Every entry at or below `src` is carried to the same place below `dst`. -/
def moveTree (fs : FS) (src dst : Loc) : FS :=
  fs.map (fun kn => if src.isPrefixOf kn.1 then (dst ++ kn.1.drop src.length, kn.2) else kn)

/-- The system call `rename(2)`. -/
def renameLoc (fs : FS) (src dst : Loc) : FS × Option Errno :=
  match statLoc fs src with
  | .error e => (fs, some e)
  | .ok srcNode =>
    match statLoc fs dst.dropLast with
    | .error e => (fs, some e)
    | .ok (.file _) => (fs, some .ENOTDIR)
    | .ok (.dir wd) =>
      if src = dst then (fs, none)
      else if src = [] ∨ dst = [] then (fs, some .EINVAL)
      else
        match statLoc fs src.dropLast with
        | .ok (.dir ws) =>
          if ws && wd then
            match srcNode, fsLookup fs dst with
            | .file c, none => (fsSet (fsRemove fs src) dst (.file c), none)
            | .file c, some (.file _) => (fsSet (fsRemove fs src) dst (.file c), none)
            | .file _, some (.dir _) => (fs, some .EISDIR)
            | .dir _, some (.file _) => (fs, some .ENOTDIR)
            | .dir _, other =>
              if src.isPrefixOf dst then (fs, some .EINVAL)
              else if other.isSome && hasChildren fs dst then (fs, some .ENOTEMPTY)
              else (moveTree (fsRemove fs dst) src dst, none)
          else (fs, some .EACCES)
        | _ => (fs, some .ENOENT)

/-- A directory entry as `os.ReadDir` and `os.Lstat` report it. -/
structure DirEntry where
  name : Str
  isDir : Bool
  deriving DecidableEq, Repr

/-- Byte order on names, the order in which `os.ReadDir` returns entries. -/
def strLe : Str → Str → Bool
  | [], _ => true
  | _ :: _, [] => false
  | a :: as, b :: bs => a.toNat < b.toNat || (a = b && strLe as bs)

/-- The entries directly below `l`, unsorted. Only directory entry names are
reported: never `.` or `..`, nor a name that is empty or holds a separator. -/
def children (fs : FS) (l : Loc) : List DirEntry :=
  ((fs.map (fun kn => kn.1)).dedup).filterMap (fun k =>
    match k.reverse with
    | [] => none
    | name :: parent =>
      if parent.reverse = l ∧ plainName name = true then
        (fsLookup fs k).map (fun n => ⟨name, n.isDir⟩)
      else none)

def readDirLoc (fs : FS) (l : Loc) : Except Errno (List DirEntry) :=
  match statLoc fs l with
  | .error e => .error e
  | .ok (.file _) => .error .ENOTDIR
  | .ok (.dir _) =>
    .ok ((children fs l).insertionSort (fun a b => strLe a.name b.name = true))

/-! ## The process and its system calls -/

inductive Event
  | opened (path : Str) (err : Option Errno)
  | mkdirAll (path : Str) (err : Option Errno)
  | rename (oldpath newpath : Str) (err : Option Errno)
  deriving DecidableEq, Repr

/-- What the program acts on: the file system, its working directory, and
the record of the calls it has made that open, create or move something. -/
structure World where
  fs : FS
  cwd : Loc
  log : List Event
  deriving DecidableEq, Repr

/-- Go `os.Stat` (and `os.Lstat`: there are no links). -/
def osStat (w : World) (path : Str) : Except Errno Node :=
  if path = [] then .error .ENOENT else statLoc w.fs (resolve w.cwd path)

/-- Go `os.Open`. -/
def osOpen (w : World) (path : Str) : World × Except Errno Node :=
  let r := osStat w path
  let e := match r with
    | .ok _ => none
    | .error e => some e
  (⟨w.fs, w.cwd, w.log ++ [.opened path e]⟩, r)

/-- Go `os.MkdirAll` on a cleaned path. -/
def osMkdirAll (w : World) (path : Str) : World × Option Errno :=
  let r := if path = [] then (w.fs, some Errno.ENOENT) else mkdirAllLoc w.fs (resolve w.cwd path)
  (⟨r.1, w.cwd, w.log ++ [.mkdirAll path r.2]⟩, r.2)

/-- Go `os.Rename`. -/
def osRename (w : World) (oldpath newpath : Str) : World × Option Errno :=
  let r := if oldpath = [] ∨ newpath = [] then (w.fs, some Errno.ENOENT)
    else renameLoc w.fs (resolve w.cwd oldpath) (resolve w.cwd newpath)
  (⟨r.1, w.cwd, w.log ++ [.rename oldpath newpath r.2]⟩, r.2)

/-- Go `os.ReadDir`. -/
def osReadDir (w : World) (path : Str) : Except Errno (List DirEntry) :=
  if path = [] then .error .ENOENT else readDirLoc w.fs (resolve w.cwd path)

/-- Go `fs.Stat(os.DirFS(dir), name)`. -/
def dirFSStat (w : World) (dir name : Str) : Except Errno Node :=
  if dir = [] ∨ ¬ ValidPath name then .error .EINVAL
  else osStat w (dir ++ '/' :: name)

/-! ## The program (`src/main.go`) -/

/-- The `error` values the walk deals in: the two sentinels of
`path/filepath`, a failed system call, or a failure of the tag reader. -/
inductive Err
  | SkipDir
  | SkipAll
  | sys (e : Errno)
  | tag (code : Nat)
  deriving DecidableEq, Repr

/-- What the program is given from outside the repository: the Unicode
tables, and the tag reader `tag.ReadFrom` followed by `Genre()`, as a function
of the content of the file read. -/
structure Env where
  U : UnicodeTables
  readGenre : Nat → Except Nat Str

/-- Go `tag.ReadFrom(file)` then `metadata.Genre()` on an opened node; reading
from a directory fails. -/
def tagReadFrom (E : Env) : Node → Except Err Str
  | .file c =>
    match E.readGenre c with
    | .ok g => .ok g
    | .error code => .error (.tag code)
  | .dir _ => .error (.sys .EISDIR)

/-- The test of line 57 of `src/main.go`: which entries are taken as tracks. -/
def isCandidate (U : UnicodeTables) (path : Str) (d : DirEntry) : Bool :=
  let extension := ToLower U (Ext path)
  !d.isDir && !HasPrefix d.name ['.'] &&
    (extension = ['.', 'm', 'p', '3'] || extension = ['.', 'f', 'l', 'a', 'c'])

/-- Lines 72-76: the folder a track of (capitalized) genre `genre` goes to. -/
def destinationFolder (genresFolderPath noGenreFolderPath genre : Str) : Str :=
  if genre ≠ [] then Join [genresFolderPath, genre] else noGenreFolderPath

/-- Lines 80-82 and 95-97: the folder is created when `os.Stat` reports that
it does not exist; the result of `os.MkdirAll` is not looked at. -/
def ensureFolder (w : World) (folder : Str) : World :=
  match osStat w folder with
  | .error .ENOENT => (osMkdirAll w folder).1
  | _ => w

/-- Lines 84-116: the placement of an opened track whose tag gave `genre`
(already capitalized). -/
def placeTrack (genresFolderPath noGenreFolderPath : Str) (w : World) (path : Str)
    (d : DirEntry) (genre : Str) : World × Option Err :=
  let destinationFolder := destinationFolder genresFolderPath noGenreFolderPath genre
  let w := ensureFolder w destinationFolder
  let destinationPath := Join [destinationFolder, d.name]
  match dirFSStat w destinationFolder d.name with
  | .ok _ =>
    let duplicateFolder := Join [genresFolderPath, Duplicates]
    let duplicatePath := Join [duplicateFolder, d.name]
    let w := ensureFolder w duplicateFolder
    match osRename w path duplicatePath with
    | (w, some e) => (w, some (.sys e))
    | (w, none) => (w, none)
  | .error .ENOENT =>
    match osRename w path destinationPath with
    | (w, some e) => (w, some (.sys e))
    | (w, none) => (w, none)
  | .error e => (w, some (.sys e))

/-- Lines 58-116: a candidate is opened, its tag read, and it is placed. -/
def processTrack (E : Env) (genresFolderPath noGenreFolderPath : Str) (w : World) (path : Str)
    (d : DirEntry) : World × Option Err :=
  match osOpen w path with
  | (w, .error e) => (w, some (.sys e))
  | (w, .ok file) =>
    match tagReadFrom E file with
    | .error e => (w, some e)
    | .ok metadataGenre =>
      let genre := capitalize E.U metadataGenre
      placeTrack genresFolderPath noGenreFolderPath w path d genre

/-- The function handed to `filepath.WalkDir` (lines 47-120). When `err` is
set the entry is not looked at (Go passes a nil entry when the root cannot be
read). -/
def walkFn (E : Env) (genresFolderPath noGenreFolderPath : Str) (w : World) (path : Str)
    (d : DirEntry) (err : Option Err) : World × Option Err :=
  match err with
  | some e => (w, some e)
  | none =>
    if d.isDir && d.name = Genres then (w, some .SkipDir)
    else if isCandidate E.U path d then
      processTrack E genresFolderPath noGenreFolderPath w path d
    else (w, none)

/-- The type of the function `filepath.WalkDir` calls. -/
abbrev WalkDirFunc := World → Str → DirEntry → Option Err → World × Option Err

/-- The loop of Go `filepath.walkDir` over the entries read from a directory;
`walk` is the recursive call. `SkipDir` from an entry ends the loop. -/
def walkEntries (walk : World → Str → DirEntry → Option (World × Option Err))
    (path : Str) : World → List DirEntry → Option (World × Option Err)
  | w, [] => some (w, none)
  | w, d1 :: rest =>
    match walk w (Join [path, d1.name]) d1 with
    | none => none
    | some (w1, some .SkipDir) => some (w1, none)
    | some (w1, some e) => some (w1, some e)
    | some (w1, none) => walkEntries walk path w1 rest

/-- Go `filepath.walkDir`. The recursion of the Go function follows the
directory tree as it is found while walking; here its depth is bounded by
`fuel`, and `none` means the bound was reached. -/
def walkDir (fn : WalkDirFunc) : Nat → World → Str → DirEntry → Option (World × Option Err)
  | 0, _, _, _ => none
  | fuel + 1, w, path, d =>
    match fn w path d none with
    | (w1, some e) => some (w1, if e = .SkipDir ∧ d.isDir then none else some e)
    | (w1, none) =>
      if !d.isDir then some (w1, none)
      else
        match osReadDir w1 path with
        | .error e =>
          match fn w1 path d (some (.sys e)) with
          | (w2, some e2) => some (w2, if e2 = .SkipDir ∧ d.isDir then none else some e2)
          | (w2, none) => some (w2, none)
        | .ok dirs => walkEntries (walkDir fn fuel) path w1 dirs

/-- Go `filepath.WalkDir`. -/
def WalkDir (fn : WalkDirFunc) (fuel : Nat) (w : World) (root : Str) :
    Option (World × Option Err) :=
  let r :=
    match osStat w root with
    | .error e => some (fn w root ⟨[], false⟩ (some (.sys e)))
    | .ok info => walkDir fn fuel w root ⟨basename root, info.isDir⟩
  match r with
  | none => none
  | some (w1, some .SkipDir) => some (w1, none)
  | some (w1, some .SkipAll) => some (w1, none)
  | some (w1, e) => some (w1, e)

/-- Lines 32-42: the library root, from the home directory of the user and
what standard input holds. -/
def musicLibraryPath (homeDir stdin : Str) : Str :=
  let defaultMusicLibraryPath := Join [homeDir, MusicPath]
  let musicLibraryPath := TrimSpace (ReadString '\n' stdin)
  if musicLibraryPath = [] then defaultMusicLibraryPath else musicLibraryPath

def genresFolderPath (musicLibraryPath : Str) : Str := musicLibraryPath ++ '/' :: Genres

def noGenreFolderPath (musicLibraryPath : Str) : Str :=
  Join [genresFolderPath musicLibraryPath, NoGenre]

/-- The walk of `main` over the library `root` (lines 44-120). -/
def organise (E : Env) (fuel : Nat) (w : World) (root : Str) : Option (World × Option Err) :=
  WalkDir (walkFn E (genresFolderPath root) (noGenreFolderPath root)) fuel w root

/-- What `Clean` keeps of a path: elements that are not empty, not `.`, and
hold no separator. -/
def KeptElem (x : Str) : Prop := x ≠ [] ∧ x ≠ dot ∧ '/' ∉ x

/-- What `mkdir` and `MkdirAll` may do to a file system: every entry stays,
and a new entry is a directory at a location for which `P` holds. -/
def GrowsBy (P : Loc → Prop) (fs fs1 : FS) : Prop :=
  ∀ k, fsLookup fs1 k = fsLookup fs k ∨
    (fsLookup fs k = none ∧ P k ∧ fsLookup fs1 k = some (.dir true))

/-- The outcome of `os.Rename` as the program returns it. -/
def renameOutcome (r : World × Option Errno) : World × Option Err := (r.1, r.2.map Err.sys)

/-- Title case as the specification words it ("title-case each word", with
"hip hop" giving "Hip Hop"): in each word the first letter is in title case
and the other letters are in lower case. Words are delimited as `strings.Title`
delimits them. -/
def titleCaseFrom (U : UnicodeTables) : Char → Str → Str
  | _, [] => []
  | prev, r :: rs =>
    (if isSeparator U prev then ToTitle U r else toLowerRune U r) :: titleCaseFrom U r rs

def titleCase (U : UnicodeTables) (s : Str) : Str := titleCaseFrom U ' ' s

/-- Whether every rune that does not begin a word is its own lower case. -/
def innerLowerFrom (U : UnicodeTables) : Char → Str → Bool
  | _, [] => true
  | prev, r :: rs => (isSeparator U prev || toLowerRune U r = r) && innerLowerFrom U r rs

def innerLower (U : UnicodeTables) (s : Str) : Bool := innerLowerFrom U ' ' s

/-- The rune before position `i` of `s`, as `strings.Title` remembers it: a
space before the first rune. -/
def runeBefore (s : Str) (i : Nat) : Char := if i = 0 then ' ' else s.getD (i - 1) ' '

/-- The greatest number of names in a location of the file system. -/
def fsDepth : FS → Nat
  | [] => 0
  | (k, _) :: rest => max k.length (fsDepth rest)

/-- Whether a file of this name is taken as a track. -/
def isAudioName (U : UnicodeTables) (n : Str) : Bool :=
  !HasPrefix n ['.'] &&
    (ToLower U (Ext n) = ['.', 'm', 'p', '3'] || ToLower U (Ext n) = ['.', 'f', 'l', 'a', 'c'])

/-- A library that is fully organised: every file below the root whose name is
that of a track lies below `<root>/Genres`. -/
def organised (U : UnicodeTables) (fs : FS) (rootLoc : Loc) : Bool :=
  fs.all (fun kn =>
    match kn.2, kn.1.reverse with
    | .file _, name :: parent =>
      !rootLoc.isPrefixOf parent.reverse || !isAudioName U name ||
        (rootLoc ++ [Genres]).isPrefixOf kn.1
    | _, _ => true)

/-- The path a recorded call takes its input from, if it has one: the file
opened, the file renamed. -/
def Event.source : Event → Option Str
  | .opened p _ => some p
  | .mkdirAll _ _ => none
  | .rename p _ _ => some p

/-- The contents of the files of a file system. -/
def fsContents (fs : FS) : List Nat :=
  fs.filterMap (fun kn =>
    match kn.2 with
    | .file c => some c
    | .dir _ => none)

/-- How many names deep the bucket folder of a file of content `c` lies. -/
def bucketDepth (E : Env) (gfp ngfp : Str) (cwd : Loc) (c : Nat) : Nat :=
  match E.readGenre c with
  | .ok g => (resolve cwd (destinationFolder gfp ngfp (capitalize E.U g))).length
  | .error _ => 0

/-- A bound on the depth of every location a run can come to hold: that of
the file system it starts from, and that of an entry of the Duplicate folder or
of the bucket folder of one of its files. -/
def depthBound (E : Env) (gfp ngfp : Str) (w : World) : Nat :=
  max (fsDepth w.fs)
    (1 + max (resolve w.cwd (Join [gfp, Duplicates])).length
      (((fsContents w.fs).map (bucketDepth E gfp ngfp w.cwd)).foldr max 0))

/-- A file system no deeper than `B` whose files have contents among `C`. -/
def Bounded (B : Nat) (C : List Nat) (fs : FS) : Prop :=
  fsDepth fs ≤ B ∧ ∀ l c, fsLookup fs l = some (.file c) → c ∈ C

/-! ## Example data

A small library `/m`, used to evaluate the program on concrete inputs. The
content of a file is a number; `demoGenre` is what the tag reader finds in it. -/

def demoGenre : Nat → Except Nat Str
  | 0 => .error 1
  | 1 => .ok "rock".toList
  | 2 => .ok "duplicate".toList
  | 3 => .ok []
  | 4 => .ok "../Live".toList
  | 5 => .ok "Rock/Pop".toList
  | 10 => .ok "hip hop".toList
  | _ => .ok "ROCK".toList

def demoEnv : Env := ⟨asciiTables, demoGenre⟩

def demoRoot : Str := "/m".toList

def m : Str := "m".toList
def aMp3 : Str := "a.mp3".toList
def Rock : Str := "Rock".toList

/-- The entry `a.mp3` as the walk meets it. -/
def demoEntry : DirEntry := ⟨aMp3, false⟩

/-- The walk function of the program for the library `/m`. -/
def demoFn : WalkDirFunc :=
  walkFn demoEnv (genresFolderPath demoRoot) (noGenreFolderPath demoRoot)

/-- A library in which `/m/a.mp3` (content `c`) is to be placed while
`/m/Genres/<bucket>/a.mp3` is already there with content 7. -/
def occupiedWorld (c : Nat) (bucket : Str) : World :=
  ⟨[([], .dir true), ([m], .dir true), ([m, aMp3], .file c), ([m, Genres], .dir true),
    ([m, Genres, bucket], .dir true), ([m, Genres, bucket, aMp3], .file 7)], [], []⟩

/-- A library with two tracks named `a.mp3`, of genres "rock" (content 1) and
"ROCK" (content 6), whose buckets both hold an `a.mp3` already. -/
def twoDuplicatesWorld : World :=
  ⟨[([], .dir true), ([m], .dir true), ([m, aMp3], .file 1),
    ([m, "sub".toList], .dir true), ([m, "sub".toList, aMp3], .file 6),
    ([m, Genres], .dir true),
    ([m, Genres, Rock], .dir true), ([m, Genres, Rock, aMp3], .file 7),
    ([m, Genres, "ROCK".toList], .dir true), ([m, Genres, "ROCK".toList, aMp3], .file 8)],
   [], []⟩

/-- A library in which `/m/a.mp3` (content `c`) is to be placed and nothing
has been organised yet. -/
def freshWorld (c : Nat) : World :=
  ⟨[([], .dir true), ([m], .dir true), ([m, aMp3], .file c)], [], []⟩

/-- A library with a folder `Genres` inside `/m/Artist` and a folder `genres`
in `/m`, each holding a track of genre "rock". -/
def nestedWorld : World :=
  ⟨[([], .dir true), ([m], .dir true),
    ([m, "Artist".toList], .dir true), ([m, "Artist".toList, Genres], .dir true),
    ([m, "Artist".toList, Genres, aMp3], .file 1),
    ([m, "genres".toList], .dir true), ([m, "genres".toList, aMp3], .file 1)], [], []⟩

/-- A library that is organised already: its tracks are below `/m/Genres`,
and `/m` holds nothing else but a cover image and a folder of notes. -/
def organisedWorld : World :=
  ⟨[([], .dir true), ([m], .dir true), ([m, "cover.jpg".toList], .file 9),
    ([m, "notes".toList], .dir true), ([m, "notes".toList, "todo.txt".toList], .file 9),
    ([m, Genres], .dir true), ([m, Genres, Rock], .dir true),
    ([m, Genres, Rock, aMp3], .file 1),
    ([m, Genres, NoGenre], .dir true), ([m, Genres, NoGenre, "b.flac".toList], .file 3)],
   [], []⟩

/-- A library named `Genres`: the root `/Genres` holds a track. -/
def genresRootWorld : World :=
  ⟨[([], .dir true), ([Genres], .dir true), ([Genres, aMp3], .file 1)], [], []⟩

/-- A library holding `/m/track.flac`, whose tag has no genre. -/
def noGenreWorld : World :=
  ⟨[([], .dir true), ([m], .dir true), ([m, "track.flac".toList], .file 3)], [], []⟩

theorem plainName_iff (n : Str) :
    plainName n = true ↔ n ≠ [] ∧ '/' ∉ n ∧ n ≠ dot ∧ n ≠ dotdot := by
  simp [plainName, and_assoc]

theorem splitSep_ne_nil (p : Str) : splitSep p ≠ [] := by
  cases p with
  | nil => simp [splitSep]
  | cons c cs =>
    simp only [splitSep]
    split
    · simp
    · split <;> simp

theorem splitSep_cons (c : Char) (cs : Str) :
    splitSep (c :: cs) =
      if c = '/' then [] :: splitSep cs
      else
        match splitSep cs with
        | [] => [[c]]
        | e :: es => (c :: e) :: es := rfl

theorem splitSep_append_sep (a b : Str) :
    splitSep (a ++ '/' :: b) = splitSep a ++ splitSep b := by
  induction a with
  | nil => simp [splitSep]
  | cons c cs ih =>
    rw [List.cons_append, splitSep_cons, splitSep_cons, ih]
    split
    · simp
    · cases h : splitSep cs with
      | nil => exact absurd h (splitSep_ne_nil cs)
      | cons e es => simp

theorem splitSep_noSep (n : Str) (h : '/' ∉ n) : splitSep n = [n] := by
  induction n with
  | nil => rfl
  | cons c cs ih =>
    simp only [List.mem_cons, not_or] at h
    simp only [splitSep, ih h.2]
    rw [if_neg (fun hc => h.1 hc.symm)]

theorem noSep_of_mem_splitSep (p e : Str) (h : e ∈ splitSep p) : '/' ∉ e := by
  induction p generalizing e with
  | nil => simp [splitSep] at h; simp [h]
  | cons c cs ih =>
    simp only [splitSep] at h
    split at h
    · rcases List.mem_cons.1 h with h | h
      · simp [h]
      · exact ih e h
    · cases hs : splitSep cs with
      | nil => exact absurd hs (splitSep_ne_nil cs)
      | cons e1 es =>
        rw [hs] at h
        simp only [List.mem_cons] at h
        rcases h with h | h
        · subst h
          have := ih e1 (by simp [hs])
          simp only [List.mem_cons, not_or]
          rename_i hc
          exact ⟨fun hh => hc hh.symm, this⟩
        · exact ih e (by simp [hs, h])

theorem splitSep_joinSep (es : List Str) (hne : es ≠ []) (h : ∀ e ∈ es, '/' ∉ e) :
    splitSep (joinSep es) = es := by
  induction es with
  | nil => exact absurd rfl hne
  | cons e rest ih =>
    cases rest with
    | nil => simpa [joinSep] using splitSep_noSep e (h e (by simp))
    | cons e2 rest2 =>
      simp only [joinSep]
      rw [splitSep_append_sep, splitSep_noSep e (h e (by simp)),
        ih (by simp) (fun x hx => h x (List.mem_cons_of_mem _ hx))]
      rfl


theorem cleanStep_kept (r : Bool) (S : List Str) (e : Str) (he : '/' ∉ e)
    (hS : ∀ x ∈ S, KeptElem x) : ∀ x ∈ cleanStep r S e, KeptElem x := by
  intro x hx
  unfold cleanStep at hx
  split at hx
  · exact hS x hx
  · rename_i h1
    split at hx
    · rename_i h2
      have hdd : KeptElem dotdot := ⟨by simp [dotdot], by simp [dotdot, dot], by simp [dotdot]⟩
      split at hx
      · split at hx
        · simp at hx
        · simp at hx; rw [hx]; exact hdd
      · rename_i top rest
        split at hx
        · rcases List.mem_cons.1 hx with h | h
          · rw [h]; exact hdd
          · exact hS x h
        · exact hS x (List.mem_cons_of_mem _ hx)
    · rcases List.mem_cons.1 hx with h | h
      · rw [h]; exact ⟨fun h0 => h1 (Or.inl h0), fun h0 => h1 (Or.inr h0), he⟩
      · exact hS x h

theorem foldl_cleanStep_kept (r : Bool) (xs : List Str) (S : List Str)
    (hxs : ∀ e ∈ xs, '/' ∉ e) (hS : ∀ x ∈ S, KeptElem x) :
    ∀ x ∈ xs.foldl (cleanStep r) S, KeptElem x := by
  induction xs generalizing S with
  | nil => simpa using hS
  | cons e rest ih =>
    simp only [List.foldl_cons]
    exact ih _ (fun y hy => hxs y (List.mem_cons_of_mem _ hy))
      (cleanStep_kept r S e (hxs e (by simp)) hS)

theorem cleanElems_kept (p : Str) : ∀ x ∈ cleanElems p, KeptElem x := by
  intro x hx
  unfold cleanElems at hx
  rw [List.mem_reverse] at hx
  exact foldl_cleanStep_kept _ _ [] (fun e he => noSep_of_mem_splitSep p e he) (by simp) x hx

theorem resolveStep_kept (X : List Str) (e : Str) (h : KeptElem e) (hdd : e ≠ dotdot) :
    resolveStep X e = e :: X := by
  unfold resolveStep
  rw [if_neg (by rintro (h0 | h0); exact h.1 h0; exact h.2.1 h0), if_neg hdd]

theorem resolveStep_dotdot (X : List Str) : resolveStep X dotdot = X.tail := by
  simp [resolveStep, dotdot, dot]

theorem cleanStep_resolve (r : Bool) (init : List Str) (hr : r = true → init = [])
    (S : List Str) (e : Str) (hS : ∀ x ∈ S, KeptElem x) :
    (cleanStep r S e).reverse.foldl resolveStep init
      = resolveStep (S.reverse.foldl resolveStep init) e := by
  by_cases h1 : e = [] ∨ e = dot
  · simp [cleanStep, resolveStep, h1]
  by_cases h2 : e = dotdot
  · subst h2
    rw [resolveStep_dotdot]
    cases S with
    | nil =>
      cases r with
      | true => simp [cleanStep, dotdot, dot, hr rfl]
      | false => simp [cleanStep, dotdot, dot, resolveStep]
    | cons top rest =>
      by_cases h3 : top = dotdot
      · subst h3
        simp [cleanStep, dotdot, dot, resolveStep]
      · have hk := hS top (by simp)
        have : cleanStep r (top :: rest) dotdot = rest := by
          simp only [cleanStep, dotdot, dot] at h3 ⊢
          simp [h3]
        rw [this]
        simp only [List.reverse_cons, List.foldl_append, List.foldl_cons, List.foldl_nil]
        rw [resolveStep_kept _ top hk h3]
        rfl
  · simp [cleanStep, resolveStep, h1, h2]

/-- Resolving what `Clean` has kept so far reaches the same location as
resolving the elements themselves. -/
theorem foldl_resolveStep_cleanStep (r : Bool) (init : List Str) (hr : r = true → init = [])
    (xs : List Str) (hxs : ∀ e ∈ xs, '/' ∉ e) (S : List Str) (hS : ∀ x ∈ S, KeptElem x) :
    (xs.foldl (cleanStep r) S).reverse.foldl resolveStep init
      = xs.foldl resolveStep (S.reverse.foldl resolveStep init) := by
  induction xs generalizing S with
  | nil => rfl
  | cons e rest ih =>
    simp only [List.foldl_cons]
    rw [ih (fun y hy => hxs y (List.mem_cons_of_mem _ hy)) _
      (cleanStep_kept r S e (hxs e (by simp)) hS), cleanStep_resolve r init hr S e hS]

theorem isRooted_joinSep_kept (es : List Str) (h : ∀ x ∈ es, KeptElem x) :
    isRooted (joinSep es) = false := by
  cases es with
  | nil => rfl
  | cons e rest =>
    have hk := h e (by simp)
    cases e with
    | nil => exact absurd rfl hk.1
    | cons c cs =>
      have hc : c ≠ '/' := fun hc => hk.2.2 (by simp [hc])
      cases rest <;> simp [joinSep, isRooted, hc]

theorem isRooted_Clean (p : Str) : isRooted (Clean p) = isRooted p := by
  unfold Clean
  cases h : isRooted p with
  | true => simp [isRooted]
  | false =>
    simp only [Bool.false_eq_true, if_false]
    cases he : cleanElems p with
    | nil => rfl
    | cons e rest =>
      simp only
      rw [← he]
      exact isRooted_joinSep_kept _ (cleanElems_kept p)

theorem foldl_resolveStep_nil_cons (init : List Str) (xs : List Str) :
    ([] :: xs).foldl resolveStep init = xs.foldl resolveStep init := by
  simp [resolveStep]

/-- The elements of the cleaned path resolve as the kept elements do. -/
theorem foldl_resolveStep_splitSep_Clean (p : Str) (init : List Str) :
    (splitSep (Clean p)).foldl resolveStep init = (cleanElems p).foldl resolveStep init := by
  have hk := cleanElems_kept p
  unfold Clean
  cases h : isRooted p with
  | true =>
    simp only [if_true]
    cases he : cleanElems p with
    | nil => simp [joinSep, splitSep, resolveStep]
    | cons e rest =>
      rw [splitSep_cons, if_pos rfl, foldl_resolveStep_nil_cons, ← he,
        splitSep_joinSep _ (by simp [he]) (fun x hx => (hk x hx).2.2)]
  | false =>
    simp only [Bool.false_eq_true, if_false]
    cases he : cleanElems p with
    | nil => simp [dot, splitSep, resolveStep]
    | cons e rest =>
      simp only
      rw [← he, splitSep_joinSep _ (by simp [he]) (fun x hx => (hk x hx).2.2)]

/-- `Clean` does not change the location a path names. -/
theorem resolve_Clean (cwd : Loc) (p : Str) : resolve cwd (Clean p) = resolve cwd p := by
  unfold resolve
  rw [isRooted_Clean, foldl_resolveStep_splitSep_Clean]
  unfold cleanElems
  rw [foldl_resolveStep_cleanStep (isRooted p) _ (by intro h; simp [h]) _
    (fun e he => noSep_of_mem_splitSep p e he) [] (by simp)]
  rfl

theorem isRooted_append (p q : Str) (hp : p ≠ []) : isRooted (p ++ q) = isRooted p := by
  cases p with
  | nil => exact absurd rfl hp
  | cons c cs => rfl

theorem keptElem_of_plainName (n : Str) (h : plainName n = true) : KeptElem n ∧ n ≠ dotdot := by
  rw [plainName_iff] at h
  exact ⟨⟨h.1, h.2.2.1, h.2.1⟩, h.2.2.2⟩

/-- A name appended to a path names the entry of that name in the directory
the path names. -/
theorem resolve_append_name (cwd : Loc) (p n : Str) (hp : p ≠ []) (hn : plainName n = true) :
    resolve cwd (p ++ '/' :: n) = resolve cwd p ++ [n] := by
  have hk := keptElem_of_plainName n hn
  unfold resolve
  rw [isRooted_append p _ hp, splitSep_append_sep, List.foldl_append,
    splitSep_noSep n hk.1.2.2]
  simp only [List.foldl_cons, List.foldl_nil]
  rw [resolveStep_kept _ n hk.1 hk.2]
  simp

theorem resolve_nil (cwd : Loc) : resolve cwd [] = cwd := by
  simp [resolve, isRooted, splitSep, resolveStep]

theorem resolve_name (cwd : Loc) (n : Str) (hn : plainName n = true) :
    resolve cwd n = cwd ++ [n] := by
  have hk := keptElem_of_plainName n hn
  have hroot : isRooted n = false := by
    cases n with
    | nil => rfl
    | cons c cs =>
      have : c ≠ '/' := fun hc => hk.1.2.2 (by simp [hc])
      simp [isRooted, this]
  unfold resolve
  rw [hroot, splitSep_noSep n hk.1.2.2]
  simp only [List.foldl_cons, List.foldl_nil, Bool.false_eq_true, if_false]
  rw [resolveStep_kept _ n hk.1 hk.2]
  simp

/-- The path `filepath.Join` builds from a path and a name names the entry of
that name in the directory the path names. -/
theorem resolve_Join (cwd : Loc) (p n : Str) (hn : plainName n = true) :
    resolve cwd (Join [p, n]) = resolve cwd p ++ [n] := by
  have hne : n ≠ [] := ((plainName_iff n).1 hn).1
  by_cases hp : p = []
  · subst hp
    simp only [Join, ne_eq, not_true_eq_false, if_false, hne, not_false_eq_true, if_true, joinRaw]
    rw [resolve_Clean, resolve_name cwd n hn, resolve_nil]
  · simp only [Join, ne_eq, hp, not_false_eq_true, if_true, joinRaw]
    rw [resolve_Clean, resolve_append_name cwd p n hp hn]

theorem joinSep_append_name (es : List Str) (n : Str) (h : es ≠ []) :
    joinSep (es ++ [n]) = joinSep es ++ '/' :: n := by
  induction es with
  | nil => exact absurd rfl h
  | cons e rest ih =>
    cases rest with
    | nil => simp [joinSep]
    | cons e2 rest2 =>
      have := ih (by simp)
      simp only [List.cons_append] at this ⊢
      simp only [joinSep, this, List.append_assoc, List.cons_append]

theorem cleanElems_append_name (p n : Str) (hp : p ≠ []) (hn : plainName n = true) :
    cleanElems (p ++ '/' :: n) = cleanElems p ++ [n] := by
  have hk := keptElem_of_plainName n hn
  unfold cleanElems
  rw [isRooted_append p _ hp, splitSep_append_sep, List.foldl_append,
    splitSep_noSep n hk.1.2.2]
  simp only [List.foldl_cons, List.foldl_nil]
  have : ∀ S, cleanStep (isRooted p) S n = n :: S := by
    intro S
    unfold cleanStep
    rw [if_neg (by rintro (h0 | h0); exact hk.1.1 h0; exact hk.1.2.1 h0), if_neg hk.2]
  rw [this]
  simp

/-- The shape of a cleaned path that ends in a name. -/
theorem Clean_append_name (p n : Str) (hp : p ≠ []) (hn : plainName n = true) :
    Clean (p ++ '/' :: n) =
      if cleanElems p = [] then (if isRooted p then '/' :: n else n)
      else Clean p ++ '/' :: n := by
  unfold Clean
  rw [isRooted_append p _ hp, cleanElems_append_name p n hp hn]
  cases he : cleanElems p with
  | nil => cases isRooted p <;> simp [joinSep]
  | cons e rest =>
    cases isRooted p with
    | true =>
      rw [← he, joinSep_append_name _ n (by simp [he])]
      simp [he]
    | false =>
      simp only [Bool.false_eq_true, if_false]
      cases h2 : e :: rest ++ [n] with
      | nil => simp at h2
      | cons a b =>
        simp only
        rw [← h2, ← he, joinSep_append_name _ n (by simp [he]), if_neg (by simp [he])]

theorem extScan_sep (xs ys acc : Str) : extScan (xs ++ '/' :: ys) acc = extScan xs acc := by
  induction xs generalizing acc with
  | nil => simp [extScan]
  | cons c cs ih =>
    show extScan (c :: (cs ++ '/' :: ys)) acc = extScan (c :: cs) acc
    rw [extScan, extScan, ih]

/-- The extension of a path that ends in a name is the extension of the name. -/
theorem Ext_append_name (p n : Str) : Ext (p ++ '/' :: n) = Ext n := by
  unfold Ext
  simp only [List.reverse_append, List.reverse_cons, List.append_assoc, List.singleton_append]
  exact extScan_sep _ _ _

theorem Ext_Join (p n : Str) (hn : plainName n = true) : Ext (Join [p, n]) = Ext n := by
  have hne : n ≠ [] := ((plainName_iff n).1 hn).1
  have hk := keptElem_of_plainName n hn
  have base : ∀ q, q ≠ [] → Ext (Clean (q ++ '/' :: n)) = Ext n := by
    intro q hq
    rw [Clean_append_name q n hq hn]
    split
    · split
      · exact Ext_append_name [] n
      · rfl
    · exact Ext_append_name _ n
  by_cases hp : p = []
  · subst hp
    simp only [Join, ne_eq, not_true_eq_false, if_false, hne, not_false_eq_true, if_true, joinRaw]
    -- a lone name is already clean
    have : Clean n = n := by
      have hroot : isRooted n = false := by
        cases n with
        | nil => rfl
        | cons c cs =>
          have : c ≠ '/' := fun hc => hk.1.2.2 (by simp [hc])
          simp [isRooted, this]
      have hel : cleanElems n = [n] := by
        unfold cleanElems
        rw [hroot, splitSep_noSep n hk.1.2.2]
        simp only [List.foldl_cons, List.foldl_nil]
        unfold cleanStep
        rw [if_neg (by rintro (h0 | h0); exact hk.1.1 h0; exact hk.1.2.1 h0), if_neg hk.2]
        rfl
      unfold Clean
      rw [hroot, hel]
      rfl
    rw [this]
  · simp only [Join, ne_eq, hp, not_false_eq_true, if_true, joinRaw]
    exact base p hp

/-! ## Lemmas on the file system -/

theorem fsLookup_fsRemove (fs : FS) (l k : Loc) :
    fsLookup (fsRemove fs l) k = if k = l then none else fsLookup fs k := by
  induction fs with
  | nil => simp [fsRemove, fsLookup]
  | cons kn rest ih =>
    obtain ⟨k1, n1⟩ := kn
    unfold fsRemove at ih ⊢
    by_cases h1 : k1 = l
    · subst h1
      simp only [List.filter_cons, ne_eq, not_true_eq_false, decide_False, Bool.false_eq_true,
        if_false, ih, fsLookup]
      by_cases h2 : k = k1
      · simp [h2]
      · have h3 : ¬ k1 = k := fun h => h2 h.symm
        simp [h2, h3]
    · simp only [List.filter_cons, ne_eq, h1, not_false_eq_true, decide_True, if_true, fsLookup, ih]
      by_cases h2 : k1 = k
      · subst h2; simp [h1]
      · simp [h2]

theorem fsLookup_fsSet (fs : FS) (l : Loc) (n : Node) (k : Loc) :
    fsLookup (fsSet fs l n) k = if k = l then some n else fsLookup fs k := by
  unfold fsSet
  simp only [fsLookup, fsLookup_fsRemove]
  by_cases h : l = k
  · simp [h]
  · have h3 : ¬ k = l := fun h2 => h h2.symm
    simp [h, h3]

theorem statFrom_cons (fs : FS) (pre : Loc) (c : Str) (cs : List Str) :
    statFrom fs pre (c :: cs) =
      match fsLookup fs pre with
      | some (.dir _) => statFrom fs (pre ++ [c]) cs
      | some (.file _) => .error .ENOTDIR
      | none => .error .ENOENT := rfl

/-- How `statFrom` goes one name deeper. -/
theorem statFrom_snoc (fs : FS) (pre l : Loc) (x : Str) :
    statFrom fs pre (l ++ [x]) =
      match statFrom fs pre l with
      | .ok (.dir _) =>
        (match fsLookup fs (pre ++ l ++ [x]) with
        | some n => .ok n
        | none => .error .ENOENT)
      | .ok (.file _) => .error .ENOTDIR
      | .error e => .error e := by
  induction l generalizing pre with
  | nil =>
    simp only [List.nil_append, statFrom, List.append_nil]
    cases h : fsLookup fs pre with
    | none => rfl
    | some n => cases n <;> rfl
  | cons c cs ih =>
    rw [List.cons_append, statFrom_cons, statFrom_cons]
    cases h : fsLookup fs pre with
    | none => rfl
    | some n =>
      cases n with
      | file _ => rfl
      | dir _ =>
        simp only
        rw [ih]
        simp

theorem statLoc_snoc (fs : FS) (l : Loc) (x : Str) :
    statLoc fs (l ++ [x]) =
      match statLoc fs l with
      | .ok (.dir _) =>
        (match fsLookup fs (l ++ [x]) with
        | some n => .ok n
        | none => .error .ENOENT)
      | .ok (.file _) => .error .ENOTDIR
      | .error e => .error e := by
  unfold statLoc
  rw [statFrom_snoc]
  simp

theorem statLoc_ok_lookup (fs : FS) (l : Loc) (n : Node) (h : statLoc fs l = .ok n) :
    fsLookup fs l = some n := by
  induction l using List.reverseRecOn generalizing n with
  | nil =>
    simp only [statLoc, statFrom] at h
    cases h2 : fsLookup fs [] with
    | none => simp [h2] at h
    | some m => simp [h2] at h; simp [h]
  | append_singleton l x _ =>
    rw [statLoc_snoc] at h
    split at h
    · split at h
      · rename_i m hm
        simp only [Except.ok.injEq] at h
        rw [hm, h]
      · simp at h
    · simp at h
    · simp at h

/-- An entry can only be found in a directory that can be found. -/
theorem statLoc_parent_of_ok (fs : FS) (l : Loc) (x : Str) (n : Node)
    (h : statLoc fs (l ++ [x]) = .ok n) : ∃ w, statLoc fs l = .ok (.dir w) := by
  rw [statLoc_snoc] at h
  split at h
  · rename_i w hw
    exact ⟨w, hw⟩
  · simp at h
  · simp at h

/-- A file system that keeps every entry of another finds what the other finds. -/
theorem statLoc_mono (fs fs2 : FS) (hm : ∀ k n, fsLookup fs k = some n → fsLookup fs2 k = some n)
    (l : Loc) (n : Node) (h : statLoc fs l = .ok n) : statLoc fs2 l = .ok n := by
  induction l using List.reverseRecOn generalizing n with
  | nil =>
    have := statLoc_ok_lookup fs [] n h
    simp [statLoc, statFrom, hm _ _ this]
  | append_singleton l x ih =>
    obtain ⟨w, hw⟩ := statLoc_parent_of_ok fs l x n h
    have hl := statLoc_ok_lookup fs _ n h
    rw [statLoc_snoc, ih _ hw]
    simp [hm _ _ hl]


theorem GrowsBy.refl (P : Loc → Prop) (fs : FS) : GrowsBy P fs fs := fun _ => Or.inl rfl

theorem GrowsBy.trans {P : Loc → Prop} {a b c : FS} (h1 : GrowsBy P a b) (h2 : GrowsBy P b c) :
    GrowsBy P a c := by
  intro k
  rcases h2 k with h | ⟨h, hp, hc⟩
  · rcases h1 k with g | ⟨g, gp, gc⟩
    · exact Or.inl (h.trans g)
    · exact Or.inr ⟨g, gp, h.trans gc⟩
  · rcases h1 k with g | ⟨g, gp, gc⟩
    · exact Or.inr ⟨g ▸ h, hp, hc⟩
    · rw [gc] at h; simp at h

theorem GrowsBy.weaken {P Q : Loc → Prop} {a b : FS} (h : GrowsBy P a b) (hpq : ∀ k, P k → Q k) :
    GrowsBy Q a b := by
  intro k
  rcases h k with g | ⟨g, gp, gc⟩
  · exact Or.inl g
  · exact Or.inr ⟨g, hpq k gp, gc⟩

theorem GrowsBy.keeps {P : Loc → Prop} {a b : FS} (h : GrowsBy P a b) (k : Loc) (n : Node)
    (hk : fsLookup a k = some n) : fsLookup b k = some n := by
  rcases h k with g | ⟨g, _, _⟩
  · rw [g, hk]
  · rw [hk] at g; simp at g

theorem mkdirLoc_grows (fs : FS) (l : Loc) : GrowsBy (fun k => k = l) fs (mkdirLoc fs l).1 := by
  unfold mkdirLoc
  split
  · exact GrowsBy.refl _ _
  · exact GrowsBy.refl _ _
  · split
    · exact GrowsBy.refl _ _
    · rename_i hnot
      split
      · intro k
        rw [fsLookup_fsSet]
        by_cases hk : k = l
        · subst hk
          right
          simp only [not_or, Option.not_isSome_iff_eq_none] at hnot
          simp [hnot.2]
        · left; simp [hk]
      · exact GrowsBy.refl _ _

theorem mkdirLoc_fail_same (fs : FS) (l : Loc) (fs1 : FS) (e : Errno)
    (h : mkdirLoc fs l = (fs1, some e)) : fs1 = fs := by
  unfold mkdirLoc at h
  split at h
  · simp at h; exact h.1.symm
  · simp at h; exact h.1.symm
  · split at h
    · simp at h; exact h.1.symm
    · split at h
      · simp at h
      · simp at h; exact h.1.symm

/-- `MkdirAll` keeps every entry and adds directories only on the way to the
directory asked for. -/
theorem mkdirAllRev_grows (fs : FS) (rl : List Str) :
    GrowsBy (fun k => k <+: rl.reverse) fs (mkdirAllRev fs rl).1 := by
  induction rl generalizing fs with
  | nil =>
    unfold mkdirAllRev
    split
    · exact GrowsBy.refl _ _
    · exact GrowsBy.refl _ _
    · exact (mkdirLoc_grows fs []).weaken (fun k hk => by simp [hk])
  | cons c parent ih =>
    unfold mkdirAllRev
    split
    · exact GrowsBy.refl _ _
    · exact GrowsBy.refl _ _
    · have hpar : GrowsBy (fun k => k <+: (c :: parent).reverse) fs (mkdirAllRev fs parent).1 :=
        (ih fs).weaken (fun k hk => by
          simp only [List.reverse_cons]
          exact hk.trans (List.prefix_append _ _))
      split
      · rename_i fs1 e heq
        rw [heq] at hpar
        exact hpar
      · rename_i fs1 heq
        rw [heq] at hpar
        have hmk : GrowsBy (fun k => k <+: (c :: parent).reverse) fs1
            (mkdirLoc fs1 (c :: parent).reverse).1 :=
          (mkdirLoc_grows fs1 _).weaken (fun k hk => by simp [hk])
        split
        · rename_i fs2 heq2
          rw [heq2] at hmk
          exact hpar.trans hmk
        · rename_i fs2 e heq2
          rw [heq2] at hmk
          split
          · exact hpar.trans hmk
          · exact hpar.trans hmk

/-- When `MkdirAll` reports an error, the directory asked for is not there. -/
theorem mkdirAllRev_fail (fs : FS) (rl : List Str) (fs1 : FS) (e : Errno)
    (h : mkdirAllRev fs rl = (fs1, some e)) : ∀ w, statLoc fs1 rl.reverse ≠ .ok (.dir w) := by
  induction rl generalizing fs fs1 e with
  | nil =>
    unfold mkdirAllRev at h
    split at h
    · simp at h
    · rename_i c hc
      simp only [Prod.mk.injEq, Option.some.injEq] at h
      intro w
      rw [← h.1]
      simp [hc]
    · rename_i e0 he0
      have := mkdirLoc_fail_same fs [] fs1 e h
      subst this
      intro w
      simp [he0]
  | cons c parent ih =>
    unfold mkdirAllRev at h
    split at h
    · simp at h
    · rename_i c0 hc
      simp only [Prod.mk.injEq, Option.some.injEq] at h
      intro w
      rw [← h.1, hc]
      simp
    · split at h
      · rename_i fsa ea heq
        simp only [Prod.mk.injEq, Option.some.injEq] at h
        obtain ⟨h1, h2⟩ := h
        subst h1
        intro w hw
        simp only [List.reverse_cons] at hw
        obtain ⟨w2, hw2⟩ := statLoc_parent_of_ok _ _ _ _ hw
        exact ih fs fsa ea heq w2 hw2
      · split at h
        · simp at h
        · rename_i fsa heq fs2 e2 heq2
          split at h
          · simp at h
          · rename_i hnot
            simp only [Prod.mk.injEq, Option.some.injEq] at h
            obtain ⟨h1, h2⟩ := h
            subst h1
            intro w hw
            exact hnot w hw

/-- Renaming a regular file: on an error nothing changes; otherwise the
directory of the new name exists, the new name holds the file, the old name is
gone, and every other entry is as it was. -/
theorem renameLoc_file (fs : FS) (src dst : Loc) (c : Nat) (fs1 : FS) (e : Option Errno)
    (hsrc : statLoc fs src = .ok (.file c)) (h : renameLoc fs src dst = (fs1, e)) :
    (e ≠ none → fs1 = fs) ∧
    (e = none → (∃ w, statLoc fs dst.dropLast = .ok (.dir w)) ∧
      ∀ k, fsLookup fs1 k =
        if k = dst then some (.file c) else if k = src then none else fsLookup fs k) := by
  have hl := statLoc_ok_lookup fs src _ hsrc
  unfold renameLoc at h
  rw [hsrc] at h
  simp only at h
  split at h
  · simp only [Prod.mk.injEq] at h; simp [← h.1, ← h.2]
  · simp only [Prod.mk.injEq] at h; simp [← h.1, ← h.2]
  · rename_i wd hwd
    split at h
    · rename_i heq
      simp only [Prod.mk.injEq] at h
      refine ⟨fun _ => h.1.symm, fun _ => ⟨⟨wd, hwd⟩, fun k => ?_⟩⟩
      rw [← h.1]
      by_cases hk : k = dst
      · rw [if_pos hk, hk, ← heq, hl]
      · rw [if_neg hk, if_neg (by rw [heq]; exact hk)]
    · rename_i hne
      split at h
      · simp only [Prod.mk.injEq] at h; simp [← h.1, ← h.2]
      · split at h
        · split at h
          · split at h
            · rename_i hc _
              simp only [Node.file.injEq] at hc
              subst hc
              simp only [Prod.mk.injEq] at h
              refine ⟨fun he => absurd h.2.symm he, fun _ => ⟨⟨wd, hwd⟩, fun k => ?_⟩⟩
              rw [← h.1, fsLookup_fsSet, fsLookup_fsRemove]
            · rename_i hc _
              simp only [Node.file.injEq] at hc
              subst hc
              simp only [Prod.mk.injEq] at h
              refine ⟨fun he => absurd h.2.symm he, fun _ => ⟨⟨wd, hwd⟩, fun k => ?_⟩⟩
              rw [← h.1, fsLookup_fsSet, fsLookup_fsRemove]
            · simp only [Prod.mk.injEq] at h; simp [← h.1, ← h.2]
            · rename_i hh _
              simp at hh
            · rename_i hh _
              simp at hh
          · simp only [Prod.mk.injEq] at h; simp [← h.1, ← h.2]
        · simp only [Prod.mk.injEq] at h; simp [← h.1, ← h.2]

/-- Renaming into a directory that cannot be found fails and changes nothing. -/
theorem renameLoc_no_parent (fs : FS) (src dst : Loc)
    (h : ∀ w, statLoc fs dst.dropLast ≠ .ok (.dir w)) :
    ∃ e, renameLoc fs src dst = (fs, some e) := by
  unfold renameLoc
  split
  · exact ⟨_, rfl⟩
  · split
    · exact ⟨_, rfl⟩
    · exact ⟨_, rfl⟩
    · rename_i wd hwd
      exact absurd hwd (h wd)

/-! ## Lemmas on the system calls -/

theorem joinSep_ne_nil (es : List Str) (hne : es ≠ []) (h : ∀ x ∈ es, KeptElem x) :
    joinSep es ≠ [] := by
  cases es with
  | nil => exact absurd rfl hne
  | cons e rest =>
    have hk := (h e (by simp)).1
    cases rest with
    | nil => simpa [joinSep] using hk
    | cons e2 rest2 => simp [joinSep, hk]

theorem Clean_ne_nil (p : Str) : Clean p ≠ [] := by
  unfold Clean
  split
  · simp
  · cases he : cleanElems p with
    | nil => simp [dot]
    | cons e rest =>
      simp only
      rw [← he]
      exact joinSep_ne_nil _ (by simp [he]) (cleanElems_kept p)

theorem Join_ne_nil (p : Str) (rest : List Str) (hp : p ≠ []) : Join (p :: rest) ≠ [] := by
  simp only [Join, ne_eq, hp, not_false_eq_true, if_true]
  exact Clean_ne_nil _

theorem osStat_eq (w : World) (p : Str) (hp : p ≠ []) :
    osStat w p = statLoc w.fs (resolve w.cwd p) := by
  simp [osStat, hp]

theorem ValidPath_name (n : Str) (hn : plainName n = true) : ValidPath n = true := by
  have h := (plainName_iff n).1 hn
  unfold ValidPath
  rw [splitSep_noSep n h.2.1]
  simp [h.1, h.2.2.1, h.2.2.2]

theorem dirFSStat_eq (w : World) (folder n : Str) (hf : folder ≠ []) (hn : plainName n = true) :
    dirFSStat w folder n = statLoc w.fs (resolve w.cwd folder ++ [n]) := by
  unfold dirFSStat
  rw [if_neg (by simp [hf, ValidPath_name n hn]), osStat_eq _ _ (by simp),
    resolve_append_name _ _ _ hf hn]

theorem osStat_Join (w : World) (folder n : Str) (hf : folder ≠ []) (hn : plainName n = true) :
    osStat w (Join [folder, n]) = statLoc w.fs (resolve w.cwd folder ++ [n]) := by
  rw [osStat_eq _ _ (Join_ne_nil _ _ hf), resolve_Join _ _ _ hn]

theorem ensureFolder_cwd (w : World) (f : Str) : (ensureFolder w f).cwd = w.cwd := by
  unfold ensureFolder
  split
  · rfl
  · rfl

theorem ensureFolder_of_ok (w : World) (f : Str) (n : Node) (h : osStat w f = .ok n) :
    ensureFolder w f = w := by
  unfold ensureFolder
  rw [h]

/-- Making sure a folder exists keeps every entry, adds directories only on the
way to the folder, and records at most the one call of `MkdirAll`. -/
theorem ensureFolder_grows (w : World) (f : Str) :
    GrowsBy (fun k => k <+: resolve w.cwd f) w.fs (ensureFolder w f).fs := by
  unfold ensureFolder
  split
  · unfold osMkdirAll
    simp only
    split
    · exact GrowsBy.refl _ _
    · have := mkdirAllRev_grows w.fs (resolve w.cwd f).reverse
      rw [List.reverse_reverse] at this
      exact this
  · exact GrowsBy.refl _ _

theorem ensureFolder_log (w : World) (f : Str) :
    (ensureFolder w f).log = w.log ∨
      ∃ e, (ensureFolder w f).log = w.log ++ [.mkdirAll f e] := by
  unfold ensureFolder
  split
  · right
    exact ⟨_, rfl⟩
  · left; rfl

theorem osRename_cwd (w : World) (a b : Str) : (osRename w a b).1.cwd = w.cwd := rfl

theorem osRename_log (w : World) (a b : Str) :
    (osRename w a b).1.log = w.log ++ [.rename a b (osRename w a b).2] := rfl

/-- `os.Rename` of a regular file, in terms of locations. -/
theorem osRename_file (w : World) (a b : Str) (c : Nat)
    (hsrc : osStat w a = .ok (.file c)) (hb : b ≠ []) :
    ((osRename w a b).2 ≠ none → (osRename w a b).1.fs = w.fs) ∧
    ((osRename w a b).2 = none →
      (∃ x, statLoc w.fs (resolve w.cwd b).dropLast = .ok (.dir x)) ∧
      ∀ k, fsLookup (osRename w a b).1.fs k =
        if k = resolve w.cwd b then some (.file c)
        else if k = resolve w.cwd a then none else fsLookup w.fs k) := by
  have ha : a ≠ [] := by
    intro h; rw [h] at hsrc; simp [osStat] at hsrc
  rw [osStat_eq _ _ ha] at hsrc
  have := renameLoc_file w.fs (resolve w.cwd a) (resolve w.cwd b) c
    (renameLoc w.fs (resolve w.cwd a) (resolve w.cwd b)).1
    (renameLoc w.fs (resolve w.cwd a) (resolve w.cwd b)).2 hsrc rfl
  simpa [osRename, ha, hb] using this

theorem osOpen_fst (w : World) (p : Str) :
    (osOpen w p).1 = ⟨w.fs, w.cwd, w.log ++ [.opened p
      (match osStat w p with
        | .ok _ => none
        | .error e => some e)]⟩ := rfl

theorem osOpen_snd (w : World) (p : Str) : (osOpen w p).2 = osStat w p := rfl

/-! ## Lemmas on the placement -/

theorem osStat_congr (w w1 : World) (p : Str) (hfs : w1.fs = w.fs) (hcwd : w1.cwd = w.cwd) :
    osStat w1 p = osStat w p := by
  simp [osStat, hfs, hcwd]

/-- What `os.Stat` finds stays found when a folder is made sure of. -/
theorem osStat_ensureFolder (w : World) (f p : Str) (n : Node) (h : osStat w p = .ok n) :
    osStat (ensureFolder w f) p = .ok n := by
  have hp : p ≠ [] := by
    intro h0; rw [h0] at h; simp [osStat] at h
  rw [osStat_eq _ _ hp] at h
  rw [osStat_eq _ _ hp, ensureFolder_cwd]
  exact statLoc_mono _ _ (fun k m hk => (ensureFolder_grows w f).keeps k m hk) _ _ h

theorem genresFolderPath_ne_nil (root : Str) : genresFolderPath root ≠ [] := by
  simp [genresFolderPath]

theorem noGenreFolderPath_ne_nil (root : Str) : noGenreFolderPath root ≠ [] :=
  Join_ne_nil _ _ (genresFolderPath_ne_nil root)

theorem destinationFolder_ne_nil (root genre : Str) :
    destinationFolder (genresFolderPath root) (noGenreFolderPath root) genre ≠ [] := by
  unfold destinationFolder
  split
  · exact Join_ne_nil _ _ (genresFolderPath_ne_nil root)
  · exact noGenreFolderPath_ne_nil root


theorem renameOutcome_eq (r : World × Option Errno) :
    (match r with
      | (w, some e) => (w, some (Err.sys e))
      | (w, none) => (w, none)) = renameOutcome r := by
  obtain ⟨w, e⟩ := r
  cases e <;> rfl

/-- Placement when the bucket already holds an entry of the same name: the
track is renamed into the Duplicate folder, which is made sure of first. -/
theorem placeTrack_collision (gfp ngfp : Str) (w : World) (path : Str) (d : DirEntry)
    (genre : Str) (occ : Node) (hfolder : destinationFolder gfp ngfp genre ≠ [])
    (hname : plainName d.name = true)
    (hocc : osStat w (Join [destinationFolder gfp ngfp genre, d.name]) = .ok occ) :
    placeTrack gfp ngfp w path d genre =
      renameOutcome (osRename (ensureFolder w (Join [gfp, Duplicates])) path
        (Join [Join [gfp, Duplicates], d.name])) := by
  rw [osStat_Join _ _ _ hfolder hname] at hocc
  obtain ⟨x, hx⟩ := statLoc_parent_of_ok _ _ _ _ hocc
  have hens : ensureFolder w (destinationFolder gfp ngfp genre) = w :=
    ensureFolder_of_ok _ _ _ (by rw [osStat_eq _ _ hfolder]; exact hx)
  unfold placeTrack
  simp only [hens]
  rw [dirFSStat_eq _ _ _ hfolder hname, hocc]
  simp only
  exact renameOutcome_eq _

/-! ## Tracks whose name is taken in the bucket -/

/-- The walk function on a candidate that can be opened and whose tag can be
read is the placement of the track under its capitalized genre. -/
theorem walkFn_track (E : Env) (gfp ngfp : Str) (w : World) (path : Str) (d : DirEntry)
    (c : Nat) (g : Str) (hcand : isCandidate E.U path d = true)
    (hfile : osStat w path = .ok (.file c)) (htag : E.readGenre c = .ok g) :
    walkFn E gfp ngfp w path d none =
      placeTrack gfp ngfp ⟨w.fs, w.cwd, w.log ++ [.opened path none]⟩ path d
        (capitalize E.U g) := by
  have hdir : d.isDir = false := by
    unfold isCandidate at hcand
    simp only [Bool.and_eq_true, Bool.not_eq_true'] at hcand
    exact hcand.1.1
  unfold walkFn
  simp only [hdir, Bool.false_and, Bool.false_eq_true, if_false, hcand, if_true]
  unfold processTrack
  have h1 : osOpen w path = (⟨w.fs, w.cwd, w.log ++ [.opened path none]⟩, .ok (.file c)) := by
    unfold osOpen
    simp only [hfile]
  rw [h1]
  simp only [tagReadFrom, htag]

/-- What a colliding placement does to the file system and to the record of
calls, for a track that is a regular file. -/
theorem collision_effect (gfp ngfp : Str) (w : World) (path : Str) (d : DirEntry)
    (genre : Str) (c : Nat) (occ : Node) (hfolder : destinationFolder gfp ngfp genre ≠ [])
    (hgfp : gfp ≠ []) (hname : plainName d.name = true)
    (hfile : osStat w path = .ok (.file c))
    (hocc : osStat w (Join [destinationFolder gfp ngfp genre, d.name]) = .ok occ) :
    let res := placeTrack gfp ngfp w path d genre
    let dup := Join [Join [gfp, Duplicates], d.name]
    (∃ e, res.2 = e.map Err.sys ∧
      (res.1.log = w.log ++ [.rename path dup e] ∨
        ∃ e1, res.1.log = w.log ++ [.mkdirAll (Join [gfp, Duplicates]) e1, .rename path dup e])) ∧
    res.1.cwd = w.cwd ∧
    (res.2 = none → fsLookup res.1.fs (resolve w.cwd dup) = some (.file c)) ∧
    (∀ k n, k ≠ resolve w.cwd dup → k ≠ resolve w.cwd path → fsLookup w.fs k = some n →
      fsLookup res.1.fs k = some n) := by
  intro res dup
  have hres : res = renameOutcome (osRename (ensureFolder w (Join [gfp, Duplicates])) path dup) :=
    placeTrack_collision gfp ngfp w path d genre occ hfolder hname hocc
  have hdup : dup ≠ [] := Join_ne_nil _ _ (Join_ne_nil _ _ hgfp)
  have hfile2 := osStat_ensureFolder w (Join [gfp, Duplicates]) path _ hfile
  have hren := osRename_file (ensureFolder w (Join [gfp, Duplicates])) path dup c hfile2 hdup
  rw [ensureFolder_cwd] at hren
  have hgrow := ensureFolder_grows w (Join [gfp, Duplicates])
  rw [hres]
  refine ⟨⟨(osRename (ensureFolder w (Join [gfp, Duplicates])) path dup).2, rfl, ?_⟩, ?_, ?_, ?_⟩
  · simp only [renameOutcome, osRename_log]
    rcases ensureFolder_log w (Join [gfp, Duplicates]) with h | ⟨e1, h⟩
    · left; rw [h]
    · right; exact ⟨e1, by rw [h]; simp⟩
  · simp only [renameOutcome, osRename_cwd, ensureFolder_cwd]
  · intro hnone
    simp only [renameOutcome, Option.map_eq_none'] at hnone
    simp only [renameOutcome]
    rw [(hren.2 hnone).2, if_pos rfl]
  · intro k n hk1 hk2 hkn
    have hkeep := hgrow.keeps k n hkn
    simp only [renameOutcome]
    cases he : (osRename (ensureFolder w (Join [gfp, Duplicates])) path dup).2 with
    | none => rw [(hren.2 he).2, if_neg hk1, if_neg hk2, hkeep]
    | some e => rw [hren.1 (by simp [he]), hkeep]

theorem plainName_Genres : plainName Genres = true := by decide

theorem plainName_Duplicates : plainName Duplicates = true := by decide

theorem plainName_NoGenre : plainName NoGenre = true := by decide

/-- The location of the output folder, one name below the library root. -/
theorem resolve_genresFolderPath (cwd : Loc) (root : Str) (hroot : root ≠ []) :
    resolve cwd (genresFolderPath root) = resolve cwd root ++ [Genres] :=
  resolve_append_name cwd root Genres hroot plainName_Genres

/-- The location of an entry of a bucket with a plain name. -/
theorem resolve_bucket_entry (cwd : Loc) (root bucket n : Str) (hroot : root ≠ [])
    (hb : plainName bucket = true) (hn : plainName n = true) :
    resolve cwd (Join [Join [genresFolderPath root, bucket], n])
      = resolve cwd root ++ [Genres, bucket, n] := by
  rw [resolve_Join _ _ _ hn, resolve_Join _ _ _ hb, resolve_genresFolderPath _ _ hroot]
  simp

/-- C1 (amended): when the bucket chosen from the genre of a track already
holds an entry of the same name, the only rename made is the one of the track
to `<root>/Genres/Duplicate/<name>`, where the track is found afterwards if the
rename succeeds; the entry that occupied `<bucket>/<name>` is left as it was
whenever that path is neither the Duplicate path nor the path of the track. -/
theorem duplicate_keeps_occupant (E : Env) (root : Str) (w : World) (path : Str)
    (d : DirEntry) (c : Nat) (g : Str) (occ : Node)
    (hroot : root ≠ []) (hname : plainName d.name = true)
    (hcand : isCandidate E.U path d = true)
    (hfile : osStat w path = .ok (.file c)) (htag : E.readGenre c = .ok g)
    (hocc : osStat w (Join [destinationFolder (genresFolderPath root) (noGenreFolderPath root)
      (capitalize E.U g), d.name]) = .ok occ) :
    let res := walkFn E (genresFolderPath root) (noGenreFolderPath root) w path d none
    let bucketPath := Join [destinationFolder (genresFolderPath root) (noGenreFolderPath root)
      (capitalize E.U g), d.name]
    let dup := Join [Join [genresFolderPath root, Duplicates], d.name]
    resolve w.cwd dup = resolve w.cwd root ++ [Genres, Duplicates, d.name] ∧
    (∃ e, res.2 = e.map Err.sys ∧
      (res.1.log = w.log ++ [.opened path none, .rename path dup e] ∨
        ∃ e1, res.1.log = w.log ++ [.opened path none,
          .mkdirAll (Join [genresFolderPath root, Duplicates]) e1, .rename path dup e])) ∧
    (res.2 = none → fsLookup res.1.fs (resolve w.cwd dup) = some (.file c)) ∧
    (resolve w.cwd bucketPath ≠ resolve w.cwd dup →
      resolve w.cwd bucketPath ≠ resolve w.cwd path →
      fsLookup res.1.fs (resolve w.cwd bucketPath) = some occ) := by
  intro res bucketPath dup
  have hres : res = placeTrack (genresFolderPath root) (noGenreFolderPath root)
      ⟨w.fs, w.cwd, w.log ++ [.opened path none]⟩ path d (capitalize E.U g) :=
    walkFn_track E _ _ w path d c g hcand hfile htag
  have hfolder := destinationFolder_ne_nil root (capitalize E.U g)
  have heff := collision_effect (genresFolderPath root) (noGenreFolderPath root)
    ⟨w.fs, w.cwd, w.log ++ [.opened path none]⟩ path d (capitalize E.U g) c occ hfolder
    (genresFolderPath_ne_nil root) hname
    ((osStat_congr w _ _ rfl rfl).trans hfile)
    ((osStat_congr w _ _ rfl rfl).trans hocc)
  simp only at heff
  rw [← hres] at heff
  obtain ⟨⟨e, he, hlog⟩, _, hmoved, hkeep⟩ := heff
  refine ⟨resolve_bucket_entry _ _ _ _ hroot plainName_Duplicates hname, ⟨e, he, ?_⟩, hmoved, ?_⟩
  · rcases hlog with h | ⟨e1, h⟩
    · left; rw [h]; simp
    · right; exact ⟨e1, by rw [h]; simp⟩
  · intro h1 h2
    have hb : bucketPath ≠ [] := Join_ne_nil _ _ hfolder
    have := statLoc_ok_lookup _ _ _ (by rw [← osStat_eq w bucketPath hb]; exact hocc)
    exact hkeep _ _ h1 h2 this

/-- C1, a track in a bucket other than Duplicate: `/m/a.mp3` of genre "rock"
goes to `/m/Genres/Duplicate/a.mp3` and `/m/Genres/Rock/a.mp3` keeps its
content. -/
theorem duplicate_keeps_occupant_witness :
    fsLookup (demoFn (occupiedWorld 1 Rock) "/m/a.mp3".toList demoEntry none).1.fs
        [m, Genres, Duplicates, aMp3] = some (.file 1) ∧
      fsLookup (demoFn (occupiedWorld 1 Rock) "/m/a.mp3".toList demoEntry none).1.fs
        [m, Genres, Rock, aMp3] = some (.file 7) :=
  have h := duplicate_keeps_occupant demoEnv demoRoot (occupiedWorld 1 Rock) "/m/a.mp3".toList
    demoEntry 1 "rock".toList (.file 7) (by decide) (by decide) (by decide) rfl rfl rfl
  ⟨h.2.2.1 (by decide), h.2.2.2 (by decide) (by decide)⟩

/-- C1 as stated fails for a genre whose bucket is the Duplicate folder: the
track `/m/a.mp3` of genre "duplicate" (content 2) finds
`/m/Genres/Duplicate/a.mp3` (content 7) in its bucket, is renamed onto it, and
the occupant is replaced. -/
theorem duplicate_bucket_occupant_replaced :
    osStat (occupiedWorld 2 Duplicates)
        (Join [destinationFolder (genresFolderPath demoRoot) (noGenreFolderPath demoRoot)
          (capitalize demoEnv.U "duplicate".toList), aMp3]) = .ok (.file 7) ∧
      (demoFn (occupiedWorld 2 Duplicates) "/m/a.mp3".toList demoEntry none).2 = none ∧
      fsLookup (demoFn (occupiedWorld 2 Duplicates) "/m/a.mp3".toList demoEntry none).1.fs
        [m, Genres, Duplicates, aMp3] = some (.file 2) := by
  refine ⟨rfl, ?_, ?_⟩ <;> decide


/-! ## The destination of duplicates -/

/-- C9: a track routed to the Duplicate folder is renamed to
`<root>/Genres/Duplicate/<file name>` without that path being looked at
first, whatever its genre; two such tracks with the same file name are renamed
to the same path, and after the second rename the path holds the second
track. -/
theorem duplicates_share_destination (E : Env) (root : Str) (w : World) (p1 p2 : Str)
    (d1 d2 : DirEntry) (c1 c2 : Nat) (g1 g2 : Str) (occ1 occ2 : Node)
    (hroot : root ≠ []) (hname : plainName d1.name = true) (hsame : d2.name = d1.name)
    (hcand1 : isCandidate E.U p1 d1 = true)
    (hfile1 : osStat w p1 = .ok (.file c1)) (htag1 : E.readGenre c1 = .ok g1)
    (hocc1 : osStat w (Join [destinationFolder (genresFolderPath root) (noGenreFolderPath root)
      (capitalize E.U g1), d1.name]) = .ok occ1)
    (hok1 : (walkFn E (genresFolderPath root) (noGenreFolderPath root) w p1 d1 none).2 = none)
    (hcand2 : isCandidate E.U p2 d2 = true)
    (hfile2 : osStat (walkFn E (genresFolderPath root) (noGenreFolderPath root) w p1 d1 none).1 p2
      = .ok (.file c2))
    (htag2 : E.readGenre c2 = .ok g2)
    (hocc2 : osStat (walkFn E (genresFolderPath root) (noGenreFolderPath root) w p1 d1 none).1
      (Join [destinationFolder (genresFolderPath root) (noGenreFolderPath root)
        (capitalize E.U g2), d2.name]) = .ok occ2)
    (hok2 : (walkFn E (genresFolderPath root) (noGenreFolderPath root)
      (walkFn E (genresFolderPath root) (noGenreFolderPath root) w p1 d1 none).1 p2 d2 none).2
        = none) :
    let fn := walkFn E (genresFolderPath root) (noGenreFolderPath root)
    let dup := Join [Join [genresFolderPath root, Duplicates], d1.name]
    let w1 := (fn w p1 d1 none).1
    let w2 := (fn w1 p2 d2 none).1
    fn w p1 d1 none = renameOutcome (osRename (ensureFolder
        ⟨w.fs, w.cwd, w.log ++ [.opened p1 none]⟩ (Join [genresFolderPath root, Duplicates]))
        p1 dup) ∧
    resolve w.cwd dup = resolve w.cwd root ++ [Genres, Duplicates, d1.name] ∧
    w1.log.getLast? = some (.rename p1 dup none) ∧
    w2.log.getLast? = some (.rename p2 dup none) ∧
    fsLookup w1.fs (resolve w.cwd dup) = some (.file c1) ∧
    fsLookup w2.fs (resolve w.cwd dup) = some (.file c2) := by
  intro fn dup w1 w2
  have hfolder1 := destinationFolder_ne_nil root (capitalize E.U g1)
  have hfolder2 := destinationFolder_ne_nil root (capitalize E.U g2)
  have hname2 : plainName d2.name = true := by rw [hsame]; exact hname
  -- the first track
  have hres1 : fn w p1 d1 none = placeTrack (genresFolderPath root) (noGenreFolderPath root)
      ⟨w.fs, w.cwd, w.log ++ [.opened p1 none]⟩ p1 d1 (capitalize E.U g1) :=
    walkFn_track E _ _ w p1 d1 c1 g1 hcand1 hfile1 htag1
  have heff1 := collision_effect (genresFolderPath root) (noGenreFolderPath root)
    ⟨w.fs, w.cwd, w.log ++ [.opened p1 none]⟩ p1 d1 (capitalize E.U g1) c1 occ1 hfolder1
    (genresFolderPath_ne_nil root) hname
    ((osStat_congr w _ _ rfl rfl).trans hfile1) ((osStat_congr w _ _ rfl rfl).trans hocc1)
  simp only at heff1
  rw [← hres1] at heff1
  obtain ⟨⟨e1, he1, hlog1⟩, hcwd1, hmoved1, _⟩ := heff1
  have hcwd1 : w1.cwd = w.cwd := hcwd1
  have he1n : e1 = none := by
    have : (fn w p1 d1 none).2 = none := hok1
    rw [he1] at this
    simpa using this
  subst he1n
  -- the second track
  have hres2 : fn w1 p2 d2 none = placeTrack (genresFolderPath root) (noGenreFolderPath root)
      ⟨w1.fs, w1.cwd, w1.log ++ [.opened p2 none]⟩ p2 d2 (capitalize E.U g2) :=
    walkFn_track E _ _ w1 p2 d2 c2 g2 hcand2 hfile2 htag2
  have heff2 := collision_effect (genresFolderPath root) (noGenreFolderPath root)
    ⟨w1.fs, w1.cwd, w1.log ++ [.opened p2 none]⟩ p2 d2 (capitalize E.U g2) c2 occ2 hfolder2
    (genresFolderPath_ne_nil root) hname2
    ((osStat_congr w1 _ _ rfl rfl).trans hfile2) ((osStat_congr w1 _ _ rfl rfl).trans hocc2)
  simp only at heff2
  rw [← hres2, hsame, hcwd1] at heff2
  obtain ⟨⟨e2, he2, hlog2⟩, _, hmoved2, _⟩ := heff2
  have he2n : e2 = none := by
    have : (fn w1 p2 d2 none).2 = none := hok2
    rw [he2] at this
    simpa using this
  subst he2n
  refine ⟨?_, resolve_bucket_entry _ _ _ _ hroot plainName_Duplicates hname, ?_, ?_,
    hmoved1 hok1, hmoved2 hok2⟩
  · rw [hres1]
    exact placeTrack_collision _ _ _ p1 d1 _ occ1 hfolder1 hname
      ((osStat_congr w _ _ rfl rfl).trans hocc1)
  · rcases hlog1 with h | ⟨x, h⟩
    · show (fn w p1 d1 none).1.log.getLast? = _
      rw [h]; simp
    · show (fn w p1 d1 none).1.log.getLast? = _
      rw [h, List.getLast?_append]; simp
  · rcases hlog2 with h | ⟨x, h⟩
    · show (fn w1 p2 d2 none).1.log.getLast? = _
      rw [h]; simp
    · show (fn w1 p2 d2 none).1.log.getLast? = _
      rw [h, List.getLast?_append]; simp

/-- C9 on two tracks `a.mp3` of genres "rock" and "ROCK": both go to
`/m/Genres/Duplicate/a.mp3`, which ends up holding the second (content 6). -/
theorem duplicates_share_destination_witness :
    fsLookup (demoFn twoDuplicatesWorld "/m/a.mp3".toList demoEntry none).1.fs
        [m, Genres, Duplicates, aMp3] = some (.file 1) ∧
      fsLookup (demoFn (demoFn twoDuplicatesWorld "/m/a.mp3".toList demoEntry none).1
        "/m/sub/a.mp3".toList demoEntry none).1.fs
        [m, Genres, Duplicates, aMp3] = some (.file 6) :=
  have h := duplicates_share_destination demoEnv demoRoot twoDuplicatesWorld
    "/m/a.mp3".toList "/m/sub/a.mp3".toList demoEntry demoEntry 1 6 "rock".toList
    "ROCK".toList (.file 7) (.file 8) (by decide) (by decide) rfl (by decide) rfl rfl rfl
    (by decide) (by decide) rfl rfl rfl (by decide)
  ⟨h.2.2.2.2.1, h.2.2.2.2.2⟩


/-! ## Tracks whose name is free in the bucket -/

/-- Placement when the bucket holds no entry of the same name: once the bucket
folder is made sure of, either the check of the name fails with an error other
than not-found, which is returned, or the track is renamed into the bucket. -/
theorem placeTrack_free (gfp ngfp : Str) (w : World) (path : Str) (d : DirEntry)
    (genre : Str) (hfolder : destinationFolder gfp ngfp genre ≠ [])
    (hname : plainName d.name = true)
    (hfree : fsLookup w.fs (resolve w.cwd (destinationFolder gfp ngfp genre) ++ [d.name]) = none) :
    placeTrack gfp ngfp w path d genre =
        renameOutcome (osRename (ensureFolder w (destinationFolder gfp ngfp genre)) path
          (Join [destinationFolder gfp ngfp genre, d.name])) ∨
      ∃ e, placeTrack gfp ngfp w path d genre =
        (ensureFolder w (destinationFolder gfp ngfp genre), some (.sys e)) := by
  have hstill : fsLookup (ensureFolder w (destinationFolder gfp ngfp genre)).fs
      (resolve w.cwd (destinationFolder gfp ngfp genre) ++ [d.name]) = none := by
    rcases ensureFolder_grows w (destinationFolder gfp ngfp genre) _ with h | ⟨_, hp, _⟩
    · rw [h, hfree]
    · have := hp.length_le
      simp at this
  unfold placeTrack
  simp only
  rw [dirFSStat_eq _ _ _ hfolder hname, ensureFolder_cwd]
  cases hs : statLoc (ensureFolder w (destinationFolder gfp ngfp genre)).fs
      (resolve w.cwd (destinationFolder gfp ngfp genre) ++ [d.name]) with
  | ok n =>
    have := statLoc_ok_lookup _ _ _ hs
    rw [hstill] at this
    simp at this
  | error e =>
    cases e
    · left; exact renameOutcome_eq _
    all_goals right; exact ⟨_, rfl⟩

/-- The bucket folder of tracks without genre, as a string. -/
theorem noGenreFolderPath_eq (root : Str) (hroot : root ≠ []) :
    noGenreFolderPath root = Clean (root ++ '/' :: Genres ++ '/' :: NoGenre) ∧
    (Clean root = root → root ≠ ['/'] → root ≠ dot →
      noGenreFolderPath root = root ++ '/' :: Genres ++ '/' :: NoGenre) := by
  have h1 : noGenreFolderPath root = Clean (root ++ '/' :: Genres ++ '/' :: NoGenre) := by
    simp [noGenreFolderPath, genresFolderPath, Join, joinRaw]
  refine ⟨h1, fun hclean hslash hdot => ?_⟩
  have hel : cleanElems root ≠ [] := by
    intro h0
    unfold Clean at hclean
    rw [h0] at hclean
    split at hclean
    · exact hslash (by rw [← hclean]; rfl)
    · exact hdot hclean.symm
  have hg : cleanElems (root ++ '/' :: Genres) ≠ [] := by
    rw [cleanElems_append_name _ _ hroot plainName_Genres]; simp
  rw [h1, show root ++ '/' :: Genres ++ '/' :: NoGenre = (root ++ '/' :: Genres) ++ '/' :: NoGenre
    by simp, Clean_append_name _ _ (by simp) plainName_NoGenre, if_neg hg,
    Clean_append_name _ _ hroot plainName_Genres, if_neg hel, hclean]

/-- C3: a track whose genre tag is empty has `<root>/Genres/No Genre` as its
bucket folder; when that folder holds no entry of its name and the run goes on
without error, the track has been renamed to
`<root>/Genres/No Genre/<file name>` and is found there. -/
theorem no_genre_bucket (E : Env) (root : Str) (w : World) (path : Str) (d : DirEntry)
    (c : Nat) (hroot : root ≠ []) (hname : plainName d.name = true)
    (hcand : isCandidate E.U path d = true)
    (hfile : osStat w path = .ok (.file c)) (htag : E.readGenre c = .ok []) :
    let res := walkFn E (genresFolderPath root) (noGenreFolderPath root) w path d none
    let bucket := destinationFolder (genresFolderPath root) (noGenreFolderPath root)
      (capitalize E.U [])
    bucket = Clean (root ++ '/' :: Genres ++ '/' :: NoGenre) ∧
    (Clean root = root → root ≠ ['/'] → root ≠ dot →
      bucket = root ++ '/' :: Genres ++ '/' :: NoGenre) ∧
    resolve w.cwd bucket = resolve w.cwd root ++ [Genres, NoGenre] ∧
    (fsLookup w.fs (resolve w.cwd root ++ [Genres, NoGenre, d.name]) = none → res.2 = none →
      res.1.log.getLast? = some (.rename path (Join [bucket, d.name]) none) ∧
      fsLookup res.1.fs (resolve w.cwd root ++ [Genres, NoGenre, d.name]) = some (.file c)) := by
  intro res bucket
  have hb : bucket = noGenreFolderPath root := rfl
  have hloc : resolve w.cwd bucket = resolve w.cwd root ++ [Genres, NoGenre] := by
    rw [hb]
    unfold noGenreFolderPath
    rw [resolve_Join _ _ _ plainName_NoGenre, resolve_genresFolderPath _ _ hroot]
    simp
  refine ⟨hb ▸ (noGenreFolderPath_eq root hroot).1, hb ▸ (noGenreFolderPath_eq root hroot).2,
    hloc, fun hfree hok => ?_⟩
  have hres : res = placeTrack (genresFolderPath root) (noGenreFolderPath root)
      ⟨w.fs, w.cwd, w.log ++ [.opened path none]⟩ path d (capitalize E.U []) :=
    walkFn_track E _ _ w path d c [] hcand hfile htag
  have hfolder := destinationFolder_ne_nil root (capitalize E.U [])
  have hfree2 : fsLookup w.fs (resolve w.cwd bucket ++ [d.name]) = none := by
    rw [hloc]; simpa using hfree
  have hdest : resolve w.cwd (Join [bucket, d.name])
      = resolve w.cwd root ++ [Genres, NoGenre, d.name] := by
    rw [resolve_Join _ _ _ hname, hloc]; simp
  rcases placeTrack_free (genresFolderPath root) (noGenreFolderPath root)
    ⟨w.fs, w.cwd, w.log ++ [.opened path none]⟩ path d (capitalize E.U []) hfolder hname hfree2
    with h | ⟨e, h⟩
  · rw [← hres] at h
    have hfile2 := osStat_ensureFolder ⟨w.fs, w.cwd, w.log ++ [.opened path none]⟩ bucket path _
      ((osStat_congr w _ _ rfl rfl).trans hfile)
    have hren := osRename_file _ path (Join [bucket, d.name]) c hfile2 (Join_ne_nil _ _ hfolder)
    rw [ensureFolder_cwd] at hren
    have hnone : (osRename (ensureFolder ⟨w.fs, w.cwd, w.log ++ [.opened path none]⟩ bucket)
        path (Join [bucket, d.name])).2 = none := by
      have : res.2 = none := hok
      rw [h] at this
      simpa [renameOutcome] using this
    constructor
    · show res.1.log.getLast? = _
      rw [h]
      simp only [renameOutcome, osRename_log, hnone]
      simp
    · show fsLookup res.1.fs _ = _
      rw [h]
      simp only [renameOutcome]
      rw [(hren.2 hnone).2, ← hdest, if_pos rfl]
  · rw [← hres] at h
    have : res.2 = none := hok
    rw [h] at this
    simp at this

/-- C3 on the example of the specification: `/m/track.flac` without genre ends
at `/m/Genres/No Genre/track.flac`. -/
theorem no_genre_bucket_witness :
    fsLookup (demoFn noGenreWorld "/m/track.flac".toList ⟨"track.flac".toList, false⟩ none).1.fs
      [m, Genres, NoGenre, "track.flac".toList] = some (.file 3) :=
  ((no_genre_bucket demoEnv demoRoot noGenreWorld "/m/track.flac".toList
    ⟨"track.flac".toList, false⟩ 3 (by decide) (by decide) (by decide) rfl rfl).2.2.2
    (by decide) (by decide)).2


/-! ## Where tracks are moved to -/

/-- The calls a placement records: `MkdirAll`, and renames of the track to its
place in the bucket or to its place in the Duplicate folder. -/
theorem placeTrack_log (gfp ngfp : Str) (w : World) (path : Str) (d : DirEntry) (genre : Str) :
    ∃ evs, (placeTrack gfp ngfp w path d genre).1.log = w.log ++ evs ∧
      ∀ ev ∈ evs, (∃ p e, ev = .mkdirAll p e) ∨
        (∃ e, ev = .rename path (Join [destinationFolder gfp ngfp genre, d.name]) e) ∨
        (∃ e, ev = .rename path (Join [Join [gfp, Duplicates], d.name]) e) := by
  unfold placeTrack
  simp only
  obtain ⟨ev1, hev1, hk1⟩ : ∃ evs, (ensureFolder w (destinationFolder gfp ngfp genre)).log
      = w.log ++ evs ∧ ∀ ev ∈ evs, ∃ p e, ev = Event.mkdirAll p e := by
    rcases ensureFolder_log w (destinationFolder gfp ngfp genre) with h | ⟨e, h⟩
    · exact ⟨[], by simpa using h, by simp⟩
    · exact ⟨_, h, by simp⟩
  split
  · obtain ⟨ev2, hev2, hk2⟩ : ∃ evs,
        (ensureFolder (ensureFolder w (destinationFolder gfp ngfp genre))
          (Join [gfp, Duplicates])).log
        = (ensureFolder w (destinationFolder gfp ngfp genre)).log ++ evs ∧
        ∀ ev ∈ evs, ∃ p e, ev = Event.mkdirAll p e := by
      rcases ensureFolder_log (ensureFolder w (destinationFolder gfp ngfp genre))
        (Join [gfp, Duplicates]) with h | ⟨e, h⟩
      · exact ⟨[], by simpa using h, by simp⟩
      · exact ⟨_, h, by simp⟩
    rw [renameOutcome_eq]
    refine ⟨ev1 ++ ev2 ++ [.rename path (Join [Join [gfp, Duplicates], d.name])
      (osRename (ensureFolder (ensureFolder w (destinationFolder gfp ngfp genre))
        (Join [gfp, Duplicates])) path (Join [Join [gfp, Duplicates], d.name])).2], ?_, ?_⟩
    · simp only [renameOutcome, osRename_log, hev2, hev1, List.append_assoc]
    · intro ev hev
      simp only [List.mem_append, List.mem_singleton] at hev
      rcases hev with (h | h) | h
      · exact Or.inl (hk1 ev h)
      · exact Or.inl (hk2 ev h)
      · exact Or.inr (Or.inr ⟨_, h⟩)
  · rw [renameOutcome_eq]
    refine ⟨ev1 ++ [.rename path (Join [destinationFolder gfp ngfp genre, d.name])
      (osRename (ensureFolder w (destinationFolder gfp ngfp genre)) path
        (Join [destinationFolder gfp ngfp genre, d.name])).2], ?_, ?_⟩
    · simp only [renameOutcome, osRename_log, hev1, List.append_assoc]
    · intro ev hev
      simp only [List.mem_append, List.mem_singleton] at hev
      rcases hev with h | h
      · exact Or.inl (hk1 ev h)
      · exact Or.inr (Or.inl ⟨_, h⟩)
  · exact ⟨ev1, hev1, fun ev hev => Or.inl (hk1 ev hev)⟩

/-- C4 (amended): when the capitalized genre of a track is empty or a single
folder name, every rename made for the track takes it to a location exactly
three names below the library root, `<root>/Genres/<bucket>/<file name>`,
where the bucket is the capitalized genre, `No Genre` when the genre is empty,
or `Duplicate`. -/
theorem move_target_shape (E : Env) (root : Str) (w : World) (path : Str) (d : DirEntry)
    (c : Nat) (g : Str) (hroot : root ≠ []) (hname : plainName d.name = true)
    (hcand : isCandidate E.U path d = true)
    (hfile : osStat w path = .ok (.file c)) (htag : E.readGenre c = .ok g)
    (hgenre : capitalize E.U g = [] ∨ plainName (capitalize E.U g) = true) :
    let res := walkFn E (genresFolderPath root) (noGenreFolderPath root) w path d none
    ∀ old new e, Event.rename old new e ∈ res.1.log →
      Event.rename old new e ∈ w.log ∨
        (old = path ∧ ∃ bucket,
          (bucket = Duplicates ∨ (capitalize E.U g ≠ [] ∧ bucket = capitalize E.U g) ∨
            (capitalize E.U g = [] ∧ bucket = NoGenre)) ∧
          plainName bucket = true ∧
          resolve w.cwd new = resolve w.cwd root ++ [Genres, bucket, d.name]) := by
  intro res old new e hmem
  have hres : res = placeTrack (genresFolderPath root) (noGenreFolderPath root)
      ⟨w.fs, w.cwd, w.log ++ [.opened path none]⟩ path d (capitalize E.U g) :=
    walkFn_track E _ _ w path d c g hcand hfile htag
  obtain ⟨evs, hlog, hk⟩ := placeTrack_log (genresFolderPath root) (noGenreFolderPath root)
    ⟨w.fs, w.cwd, w.log ++ [.opened path none]⟩ path d (capitalize E.U g)
  rw [← hres] at hlog
  rw [hlog] at hmem
  simp only [List.mem_append, List.mem_singleton] at hmem
  rcases hmem with (h | h) | h
  · exact Or.inl h
  · simp at h
  · right
    rcases hk _ h with ⟨p, e1, h1⟩ | ⟨e1, h1⟩ | ⟨e1, h1⟩
    · simp at h1
    · simp only [Event.rename.injEq] at h1
      obtain ⟨h1a, h1b, _⟩ := h1
      refine ⟨h1a, ?_⟩
      by_cases hg : capitalize E.U g = []
      · refine ⟨NoGenre, Or.inr (Or.inr ⟨hg, rfl⟩), plainName_NoGenre, ?_⟩
        rw [h1b]
        have : destinationFolder (genresFolderPath root) (noGenreFolderPath root)
            (capitalize E.U g) = Join [genresFolderPath root, NoGenre] := by
          simp [destinationFolder, hg, noGenreFolderPath]
        rw [this]
        exact resolve_bucket_entry _ _ _ _ hroot plainName_NoGenre hname
      · have hp : plainName (capitalize E.U g) = true := hgenre.resolve_left hg
        refine ⟨capitalize E.U g, Or.inr (Or.inl ⟨hg, rfl⟩), hp, ?_⟩
        rw [h1b]
        have : destinationFolder (genresFolderPath root) (noGenreFolderPath root)
            (capitalize E.U g) = Join [genresFolderPath root, capitalize E.U g] := by
          simp [destinationFolder, hg]
        rw [this]
        exact resolve_bucket_entry _ _ _ _ hroot hp hname
    · simp only [Event.rename.injEq] at h1
      obtain ⟨h1a, h1b, _⟩ := h1
      refine ⟨h1a, Duplicates, Or.inl rfl, plainName_Duplicates, ?_⟩
      rw [h1b]
      exact resolve_bucket_entry _ _ _ _ hroot plainName_Duplicates hname

/-- C4 on `/m/a.mp3` of genre "rock": the one rename recorded goes to
`/m/Genres/Rock/a.mp3`. -/
theorem move_target_shape_witness :
    Event.rename "/m/a.mp3".toList "/m/Genres/Rock/a.mp3".toList none ∈
        (demoFn (freshWorld 1) "/m/a.mp3".toList demoEntry none).1.log ∧
      (Event.rename "/m/a.mp3".toList "/m/Genres/Rock/a.mp3".toList none ∈ (freshWorld 1).log ∨
        ("/m/a.mp3".toList = "/m/a.mp3".toList ∧ ∃ bucket,
          (bucket = Duplicates ∨
            (capitalize demoEnv.U "rock".toList ≠ [] ∧
              bucket = capitalize demoEnv.U "rock".toList) ∨
            (capitalize demoEnv.U "rock".toList = [] ∧ bucket = NoGenre)) ∧
          plainName bucket = true ∧
          resolve (freshWorld 1).cwd "/m/Genres/Rock/a.mp3".toList
            = resolve (freshWorld 1).cwd demoRoot ++ [Genres, bucket, demoEntry.name])) :=
  ⟨by decide, move_target_shape demoEnv demoRoot (freshWorld 1) "/m/a.mp3".toList demoEntry 1
    "rock".toList (by decide) (by decide) (by decide) rfl rfl (Or.inr (by decide)) _ _ _
    (by decide)⟩

/-- C4 as stated fails for genres that are not a single folder name: the track
`/m/a.mp3` of genre "../Live" is renamed to `/m/Live/a.mp3`, outside
`/m/Genres`, and the one of genre "Rock/Pop" to `/m/Genres/Rock/Pop/a.mp3`, two
folders below `/m/Genres`. -/
theorem genre_with_separator_leaves_shape :
    (demoFn (freshWorld 4) "/m/a.mp3".toList demoEntry none).1.log =
        [.opened "/m/a.mp3".toList none, .mkdirAll "/m/Live".toList none,
          .rename "/m/a.mp3".toList "/m/Live/a.mp3".toList none] ∧
      fsLookup (demoFn (freshWorld 4) "/m/a.mp3".toList demoEntry none).1.fs
        [m, "Live".toList, aMp3] = some (.file 4) ∧
      (demoFn (freshWorld 5) "/m/a.mp3".toList demoEntry none).1.log =
        [.opened "/m/a.mp3".toList none, .mkdirAll "/m/Genres/Rock/Pop".toList none,
          .rename "/m/a.mp3".toList "/m/Genres/Rock/Pop/a.mp3".toList none] ∧
      fsLookup (demoFn (freshWorld 5) "/m/a.mp3".toList demoEntry none).1.fs
        [m, Genres, Rock, "Pop".toList, aMp3] = some (.file 5) := by
  refine ⟨?_, ?_, ?_, ?_⟩ <;> decide


/-! ## The name of the bucket -/

theorem titleFrom_length (U : UnicodeTables) (prev : Char) (s : Str) :
    (titleFrom U prev s).length = s.length := by
  induction s generalizing prev with
  | nil => rfl
  | cons r rs ih => simp [titleFrom, ih]

theorem titleFrom_getElem? (U : UnicodeTables) (prev : Char) (s : Str) (i : Nat) :
    (titleFrom U prev s)[i]? = (s[i]?).map (fun r =>
      if isSeparator U (if i = 0 then prev else s.getD (i - 1) ' ') then ToTitle U r else r) := by
  induction s generalizing prev i with
  | nil => simp [titleFrom]
  | cons r rs ih =>
    cases i with
    | zero => simp [titleFrom]
    | succ j =>
      simp only [titleFrom, List.getElem?_cons_succ, ih, Nat.add_sub_cancel]
      cases j with
      | zero => simp
      | succ k => simp

theorem titleFrom_eq_titleCaseFrom (U : UnicodeTables) (prev : Char) (s : Str) :
    titleFrom U prev s = titleCaseFrom U prev s ↔ innerLowerFrom U prev s = true := by
  induction s generalizing prev with
  | nil => simp [titleFrom, titleCaseFrom, innerLowerFrom]
  | cons r rs ih =>
    simp only [titleFrom, titleCaseFrom, innerLowerFrom, List.cons.injEq, ih, Bool.and_eq_true,
      Bool.or_eq_true, decide_eq_true_eq]
    cases isSeparator U prev with
    | true => simp
    | false =>
      simp only [Bool.false_eq_true, if_false, false_or]
      constructor
      · rintro ⟨h1, h2⟩; exact ⟨h1.symm, h2⟩
      · rintro ⟨h1, h2⟩; exact ⟨h1.symm, h2⟩

/-- C2 (amended): a track whose tag gives a non-empty genre `g` is placed by
the program under the bucket folder `Join(<root>/Genres, capitalize(g))`: the
only renames it records go to its name in that folder or in the Duplicate
folder, the folder is named `capitalize(g)` when that is a single folder name,
and with the name free and no error the track is found there. `capitalize(g)`
is `g` with the rune that begins each word mapped to title case and every
other rune left as it is; this is the title-cased form of `g` exactly when no
rune inside a word of `g` is changed by lower-casing. -/
theorem capitalize_title_case (E : Env) (root : Str) (w : World) (path : Str) (d : DirEntry)
    (c : Nat) (g : Str) (hg : g ≠ []) (hname : plainName d.name = true)
    (hcand : isCandidate E.U path d = true)
    (hfile : osStat w path = .ok (.file c)) (htag : E.readGenre c = .ok g) :
    let res := walkFn E (genresFolderPath root) (noGenreFolderPath root) w path d none
    let bucket := Join [genresFolderPath root, capitalize E.U g]
    (∃ evs, res.1.log = w.log ++ .opened path none :: evs ∧
      ∀ ev ∈ evs, (∃ p e, ev = .mkdirAll p e) ∨
        (∃ e, ev = .rename path (Join [bucket, d.name]) e) ∨
        (∃ e, ev = .rename path (Join [Join [genresFolderPath root, Duplicates], d.name]) e)) ∧
    (root ≠ [] → plainName (capitalize E.U g) = true →
      resolve w.cwd bucket = resolve w.cwd root ++ [Genres, capitalize E.U g]) ∧
    (fsLookup w.fs (resolve w.cwd bucket ++ [d.name]) = none → res.2 = none →
      res.1.log.getLast? = some (.rename path (Join [bucket, d.name]) none) ∧
      fsLookup res.1.fs (resolve w.cwd bucket ++ [d.name]) = some (.file c)) ∧
    (capitalize E.U g).length = g.length ∧
    (∀ i, (capitalize E.U g)[i]? = (g[i]?).map (fun r =>
      if isSeparator E.U (runeBefore g i) then ToTitle E.U r else r)) ∧
    (capitalize E.U g = titleCase E.U g ↔ innerLower E.U g = true) := by
  intro res bucket
  have hlen : (capitalize E.U g).length = g.length := titleFrom_length E.U ' ' g
  have hne : capitalize E.U g ≠ [] := by
    intro h
    rw [h] at hlen
    exact hg (List.length_eq_zero.1 hlen.symm)
  have hdest : destinationFolder (genresFolderPath root) (noGenreFolderPath root)
      (capitalize E.U g) = bucket := by
    simp [destinationFolder, hne, bucket]
  have hres : res = placeTrack (genresFolderPath root) (noGenreFolderPath root)
      ⟨w.fs, w.cwd, w.log ++ [.opened path none]⟩ path d (capitalize E.U g) := by
    have hdir : d.isDir = false := by
      unfold isCandidate at hcand
      simp only [Bool.and_eq_true, Bool.not_eq_true'] at hcand
      exact hcand.1.1
    have hopen : osOpen w path
        = (⟨w.fs, w.cwd, w.log ++ [.opened path none]⟩, .ok (.file c)) := by
      unfold osOpen
      simp only [hfile]
    show walkFn E (genresFolderPath root) (noGenreFolderPath root) w path d none = _
    unfold walkFn
    simp only [hdir, Bool.false_and, Bool.false_eq_true, if_false, hcand, if_true]
    unfold processTrack
    rw [hopen]
    simp only [tagReadFrom, htag]
  have hfolder := destinationFolder_ne_nil root (capitalize E.U g)
  rw [hdest] at hfolder
  refine ⟨?_, fun hroot hp => ?_, fun hfree hok => ?_, hlen,
    fun i => titleFrom_getElem? E.U ' ' g i, titleFrom_eq_titleCaseFrom E.U ' ' g⟩
  · obtain ⟨evs, hlog, hk⟩ := placeTrack_log (genresFolderPath root) (noGenreFolderPath root)
      ⟨w.fs, w.cwd, w.log ++ [.opened path none]⟩ path d (capitalize E.U g)
    rw [← hres] at hlog
    rw [hdest] at hk
    exact ⟨evs, by rw [hlog]; simp, hk⟩
  · show resolve w.cwd (Join [genresFolderPath root, capitalize E.U g]) = _
    rw [resolve_Join _ _ _ hp, resolve_genresFolderPath _ _ hroot]
    simp
  · rcases placeTrack_free (genresFolderPath root) (noGenreFolderPath root)
      ⟨w.fs, w.cwd, w.log ++ [.opened path none]⟩ path d (capitalize E.U g)
      (by rw [hdest]; exact hfolder) hname (by rw [hdest]; exact hfree) with h | ⟨e, h⟩
    · rw [← hres, hdest] at h
      have hfile2 := osStat_ensureFolder ⟨w.fs, w.cwd, w.log ++ [.opened path none]⟩ bucket
        path _ ((osStat_congr w _ _ rfl rfl).trans hfile)
      have hren := osRename_file _ path (Join [bucket, d.name]) c hfile2 (Join_ne_nil _ _ hfolder)
      rw [ensureFolder_cwd] at hren
      have hnone : (osRename (ensureFolder ⟨w.fs, w.cwd, w.log ++ [.opened path none]⟩ bucket)
          path (Join [bucket, d.name])).2 = none := by
        have : res.2 = none := hok
        rw [h] at this
        simpa [renameOutcome] using this
      constructor
      · show res.1.log.getLast? = _
        rw [h]
        simp only [renameOutcome, osRename_log, hnone]
        simp
      · show fsLookup res.1.fs _ = _
        rw [h]
        simp only [renameOutcome]
        rw [(hren.2 hnone).2, ← resolve_Join _ _ _ hname, if_pos rfl]
    · rw [← hres] at h
      have : res.2 = none := hok
      rw [h] at this
      simp at this

/-- C2 on the example of the specification: the track `/m/a.mp3` of genre
"hip hop" is found at `/m/Genres/Hip Hop/a.mp3` after the walk function, and
"hip hop" is capitalized to "Hip Hop". -/
theorem capitalize_title_case_witness :
    fsLookup (demoFn (freshWorld 10) "/m/a.mp3".toList demoEntry none).1.fs
        [m, Genres, "Hip Hop".toList, aMp3] = some (.file 10) ∧
      (demoFn (freshWorld 10) "/m/a.mp3".toList demoEntry none).1.log =
        [.opened "/m/a.mp3".toList none, .mkdirAll "/m/Genres/Hip Hop".toList none,
          .rename "/m/a.mp3".toList "/m/Genres/Hip Hop/a.mp3".toList none] ∧
      capitalize demoEnv.U "hip hop".toList = "Hip Hop".toList ∧
      (capitalize demoEnv.U "hip hop".toList = titleCase demoEnv.U "hip hop".toList ↔
        innerLower demoEnv.U "hip hop".toList = true) :=
  have h := capitalize_title_case demoEnv demoRoot (freshWorld 10) "/m/a.mp3".toList demoEntry
    10 "hip hop".toList (by decide) (by decide) (by decide) rfl rfl
  ⟨(h.2.2.1 (by decide) (by decide)).2, by decide, by decide, h.2.2.2.2.2⟩

/-- C2 as stated fails when the genre has upper-case letters inside a word:
`capitalize` leaves "ROCK" as it is, while its title-cased form is "Rock"; the
track `/m/a.mp3` of genre "ROCK" is renamed to `/m/Genres/ROCK/a.mp3`, and
nothing comes to be at `/m/Genres/Rock/a.mp3`. -/
theorem capitalize_keeps_inner_upper_case :
    capitalize asciiTables "ROCK".toList = "ROCK".toList ∧
      titleCase asciiTables "ROCK".toList = "Rock".toList ∧
      capitalize asciiTables "ROCK".toList ≠ titleCase asciiTables "ROCK".toList ∧
      (demoFn (freshWorld 6) "/m/a.mp3".toList demoEntry none).1.log =
        [.opened "/m/a.mp3".toList none, .mkdirAll "/m/Genres/ROCK".toList none,
          .rename "/m/a.mp3".toList "/m/Genres/ROCK/a.mp3".toList none] ∧
      fsLookup (demoFn (freshWorld 6) "/m/a.mp3".toList demoEntry none).1.fs
        [m, Genres, "ROCK".toList, aMp3] = some (.file 6) ∧
      fsLookup (demoFn (freshWorld 6) "/m/a.mp3".toList demoEntry none).1.fs
        [m, Genres, Rock, aMp3] = none := by
  refine ⟨?_, ?_, ?_, ?_, ?_, ?_⟩ <;> decide


/-! ## The prompt -/

theorem head?_dropWhile_not (p : Char → Bool) (l : Str) (c : Char)
    (h : (l.dropWhile p).head? = some c) : p c = false := by
  induction l with
  | nil => simp at h
  | cons a as ih =>
    rw [List.dropWhile_cons] at h
    split at h
    · exact ih h
    · rename_i hp
      simp only [List.head?_cons, Option.some.injEq] at h
      rw [← h]
      simpa using hp

theorem getLast?_dropWhile (p : Char → Bool) (l : Str) (h : l.dropWhile p ≠ []) :
    (l.dropWhile p).getLast? = l.getLast? := by
  induction l with
  | nil => rfl
  | cons a as ih =>
    rw [List.dropWhile_cons] at h ⊢
    split
    · rename_i hp
      rw [if_pos hp] at h
      rw [ih h]
      cases as with
      | nil => simp at h
      | cons b bs => simp [List.getLast?_cons_cons]
    · rfl

/-- What `strings.TrimSpace` returns: the string without a prefix and a suffix
of white space, and with white space neither first nor last. -/
theorem TrimSpace_spec (s : Str) :
    (∃ pre suf, s = pre ++ TrimSpace s ++ suf ∧ (∀ c ∈ pre, IsSpace c = true) ∧
      (∀ c ∈ suf, IsSpace c = true)) ∧
    (∀ c, (TrimSpace s).head? = some c → IsSpace c = false) ∧
    (∀ c, (TrimSpace s).getLast? = some c → IsSpace c = false) := by
  unfold TrimSpace
  refine ⟨⟨s.takeWhile IsSpace, (((s.dropWhile IsSpace).reverse).takeWhile IsSpace).reverse,
    ?_, ?_, ?_⟩, ?_, ?_⟩
  · rw [List.append_assoc, ← List.reverse_append, List.takeWhile_append_dropWhile,
      List.reverse_reverse, List.takeWhile_append_dropWhile]
  · intro c hc
    exact List.mem_takeWhile_imp hc
  · intro c hc
    rw [List.mem_reverse] at hc
    exact List.mem_takeWhile_imp hc
  · intro c hc
    rw [List.head?_reverse] at hc
    by_cases hne : ((s.dropWhile IsSpace).reverse).dropWhile IsSpace = []
    · rw [hne] at hc; simp at hc
    · rw [getLast?_dropWhile _ _ hne, List.getLast?_reverse] at hc
      exact head?_dropWhile_not _ _ _ hc
  · intro c hc
    rw [List.getLast?_reverse] at hc
    exact head?_dropWhile_not _ _ _ hc

theorem TrimSpace_eq_nil_of_all (s : Str) (h : ∀ c ∈ s, IsSpace c = true) : TrimSpace s = [] := by
  unfold TrimSpace
  have : s.dropWhile IsSpace = [] := by
    rw [List.dropWhile_eq_nil_iff]
    exact h
  rw [this]
  rfl

/-- The library root is never the empty path. -/
theorem musicLibraryPath_ne_nil (homeDir stdin : Str) : musicLibraryPath homeDir stdin ≠ [] := by
  unfold musicLibraryPath
  simp only
  split
  · by_cases hh : homeDir = []
    · subst hh
      simp only [Join, ne_eq, not_true_eq_false, if_false]
      rw [if_pos (by decide)]
      exact Clean_ne_nil _
    · exact Join_ne_nil _ _ hh
  · assumption

/-- C8: the library root is the line read from standard input with leading and
trailing white space removed; only when nothing is left (the line is empty or
all white space) it is the default, `Music` in the home directory. -/
theorem library_root_from_prompt (homeDir stdin : Str) :
    let line := ReadString '\n' stdin
    (TrimSpace line = [] → musicLibraryPath homeDir stdin = Join [homeDir, MusicPath]) ∧
    (TrimSpace line ≠ [] → musicLibraryPath homeDir stdin = TrimSpace line) ∧
    ((∀ c ∈ line, IsSpace c = true) → TrimSpace line = []) ∧
    (∃ pre suf, line = pre ++ TrimSpace line ++ suf ∧ (∀ c ∈ pre, IsSpace c = true) ∧
      (∀ c ∈ suf, IsSpace c = true)) ∧
    (∀ c, (TrimSpace line).head? = some c → IsSpace c = false) ∧
    (∀ c, (TrimSpace line).getLast? = some c → IsSpace c = false) ∧
    (homeDir ≠ [] → Join [homeDir, MusicPath] = Clean (homeDir ++ '/' :: MusicPath)) ∧
    (Clean homeDir = homeDir → homeDir ≠ ['/'] → homeDir ≠ dot →
      Join [homeDir, MusicPath] = homeDir ++ '/' :: MusicPath) := by
  intro line
  have hspec := TrimSpace_spec line
  refine ⟨fun h => ?_, fun h => ?_, TrimSpace_eq_nil_of_all line, hspec.1, hspec.2.1, hspec.2.2,
    fun h => ?_, fun hclean hslash hdot => ?_⟩
  · simp only [musicLibraryPath]
    rw [if_pos h]
  · simp only [musicLibraryPath]
    rw [if_neg h]
  · simp [Join, joinRaw, h]
  · have hne : homeDir ≠ [] := by
      intro h0
      rw [h0] at hclean
      exact absurd hclean (by decide)
    have hel : cleanElems homeDir ≠ [] := by
      intro h0
      unfold Clean at hclean
      rw [h0] at hclean
      split at hclean
      · exact hslash (by rw [← hclean]; rfl)
      · exact hdot hclean.symm
    have hm : plainName MusicPath = true := by decide
    simp only [Join, ne_eq, hne, not_false_eq_true, if_true, joinRaw]
    rw [Clean_append_name _ _ hne hm, if_neg hel, hclean]

/-- C8 on three inputs: a padded path, a blank line, and no input at all. -/
theorem library_root_from_prompt_witness :
    musicLibraryPath "/home/u".toList "  /srv/music \n".toList = "/srv/music".toList ∧
      musicLibraryPath "/home/u".toList " \t\n".toList = "/home/u/Music".toList ∧
      musicLibraryPath "/home/u".toList [] = "/home/u/Music".toList :=
  ⟨((library_root_from_prompt "/home/u".toList "  /srv/music \n".toList).2.1
      (by decide)).trans (by decide),
    ((library_root_from_prompt "/home/u".toList " \t\n".toList).1 (by decide)).trans (by decide),
    ((library_root_from_prompt "/home/u".toList []).1 (by decide)).trans (by decide)⟩


/-! ## Which entries are tracks -/

theorem walkFn_log_candidate (E : Env) (gfp ngfp : Str) (w : World) (path : Str) (d : DirEntry)
    (hcand : isCandidate E.U path d = true) :
    ∃ e rest, (walkFn E gfp ngfp w path d none).1.log = w.log ++ .opened path e :: rest := by
  have hdir : d.isDir = false := by
    unfold isCandidate at hcand
    simp only [Bool.and_eq_true, Bool.not_eq_true'] at hcand
    exact hcand.1.1
  unfold walkFn
  simp only [hdir, Bool.false_and, Bool.false_eq_true, if_false, hcand, if_true]
  unfold processTrack
  cases hs : osStat w path with
  | error e =>
    refine ⟨some e, [], ?_⟩
    simp [osOpen, hs]
  | ok file =>
    have h1 : osOpen w path = (⟨w.fs, w.cwd, w.log ++ [.opened path none]⟩, .ok file) := by
      unfold osOpen
      simp only [hs]
    rw [h1]
    simp only
    cases ht : tagReadFrom E file with
    | error e => exact ⟨none, [], by simp⟩
    | ok g =>
      simp only
      obtain ⟨evs, hlog, _⟩ := placeTrack_log gfp ngfp
        ⟨w.fs, w.cwd, w.log ++ [.opened path none]⟩ path d (capitalize E.U g)
      exact ⟨none, evs, by rw [hlog]; simp⟩

/-- C6: an entry is taken as a track exactly when it is not a directory, its
name does not start with a dot, and the extension of its path, lower-cased, is
`.mp3` or `.flac`; any other entry leaves the file system and the record of
calls as they were, and a track is opened first. For an entry of a directory,
`.hidden.mp3` and `x.wav` are not tracks, `SONG.MP3` and `a.Flac` are. -/
theorem candidate_filter (E : Env) (gfp ngfp : Str) (w : World) (path : Str) (d : DirEntry)
    (err : Option Err) (dir : Str) :
    (isCandidate E.U path d = true ↔
      d.isDir = false ∧ HasPrefix d.name ['.'] = false ∧
        (ToLower E.U (Ext path) = ".mp3".toList ∨ ToLower E.U (Ext path) = ".flac".toList)) ∧
    (isCandidate E.U path d = false → (walkFn E gfp ngfp w path d err).1 = w) ∧
    (err ≠ none → (walkFn E gfp ngfp w path d err).1 = w) ∧
    (err = none → isCandidate E.U path d = true →
      ∃ e rest, (walkFn E gfp ngfp w path d err).1.log = w.log ++ .opened path e :: rest) ∧
    isCandidate E.U (Join [dir, ".hidden.mp3".toList]) ⟨".hidden.mp3".toList, false⟩ = false ∧
    isCandidate E.U (Join [dir, "x.wav".toList]) ⟨"x.wav".toList, false⟩ = false ∧
    isCandidate E.U (Join [dir, "SONG.MP3".toList]) ⟨"SONG.MP3".toList, false⟩ = true ∧
    isCandidate E.U (Join [dir, "a.Flac".toList]) ⟨"a.Flac".toList, false⟩ = true := by
  refine ⟨?_, ?_, ?_, ?_, ?_, ?_, ?_, ?_⟩
  · unfold isCandidate
    simp [and_assoc]
  · intro h
    unfold walkFn
    cases err with
    | some e => rfl
    | none =>
      simp only [h, Bool.false_eq_true, if_false]
      split <;> rfl
  · intro h
    unfold walkFn
    cases err with
    | some e => rfl
    | none => exact absurd rfl h
  · intro h hc
    subst h
    exact walkFn_log_candidate E gfp ngfp w path d hc
  · unfold isCandidate
    rw [Ext_Join _ _ (by decide)]
    rfl
  · unfold isCandidate
    rw [Ext_Join _ _ (by decide)]
    rfl
  · unfold isCandidate
    rw [Ext_Join _ _ (by decide)]
    rfl
  · unfold isCandidate
    rw [Ext_Join _ _ (by decide)]
    rfl

/-- C6 on a hidden file in `/m`: the walk function leaves the world alone. -/
theorem candidate_filter_witness :
    (demoFn (freshWorld 1) "/m/.hidden.mp3".toList ⟨".hidden.mp3".toList, false⟩ none).1
      = freshWorld 1 :=
  (candidate_filter demoEnv (genresFolderPath demoRoot) (noGenreFolderPath demoRoot)
    (freshWorld 1) "/m/.hidden.mp3".toList ⟨".hidden.mp3".toList, false⟩ none demoRoot).2.1
    (by decide)


/-! ## Failure to create a folder -/

/-- `os.Rename` into a directory that cannot be found fails and changes
nothing but the record of calls. -/
theorem osRename_no_parent (w : World) (a b : Str)
    (h : ∀ x, statLoc w.fs (resolve w.cwd b).dropLast ≠ .ok (.dir x)) :
    ∃ e, osRename w a b = (⟨w.fs, w.cwd, w.log ++ [.rename a b (some e)]⟩, some e) := by
  unfold osRename
  simp only
  split
  · exact ⟨_, rfl⟩
  · obtain ⟨e, he⟩ := renameLoc_no_parent w.fs (resolve w.cwd a) (resolve w.cwd b) h
    exact ⟨e, by rw [he]⟩

/-- A folder that `os.Stat` does not find and `os.MkdirAll` fails to create:
the failure is recorded, every entry stays, and the folder is still missing. -/
theorem ensureFolder_fail (w : World) (f : Str) (e : Errno) (hf : f ≠ [])
    (hstat : osStat w f = .error .ENOENT) (hmk : (osMkdirAll w f).2 = some e) :
    (ensureFolder w f).log = w.log ++ [.mkdirAll f (some e)] ∧
    (ensureFolder w f).cwd = w.cwd ∧
    (∀ k n, fsLookup w.fs k = some n → fsLookup (ensureFolder w f).fs k = some n) ∧
    ∀ x, statLoc (ensureFolder w f).fs (resolve w.cwd f) ≠ .ok (.dir x) := by
  have hgrow := ensureFolder_grows w f
  have hens : ensureFolder w f = (osMkdirAll w f).1 := by
    unfold ensureFolder
    rw [hstat]
  refine ⟨?_, ensureFolder_cwd w f, fun k n hk => hgrow.keeps k n hk, ?_⟩
  · rw [hens]
    unfold osMkdirAll at hmk ⊢
    simp only at hmk ⊢
    rw [hmk]
  · rw [hens]
    unfold osMkdirAll at hmk ⊢
    simp only at hmk ⊢
    rw [if_neg hf] at hmk ⊢
    · have := mkdirAllRev_fail w.fs (resolve w.cwd f).reverse
        (mkdirAllLoc w.fs (resolve w.cwd f)).1 e (by
          unfold mkdirAllLoc at hmk ⊢
          exact Prod.ext rfl hmk)
      rw [List.reverse_reverse] at this
      exact this


/-- Placement when the check of the name in the bucket fails: not-found leads
to the rename into the bucket, any other error is returned. -/
theorem placeTrack_of_stat_error (gfp ngfp : Str) (w : World) (path : Str) (d : DirEntry)
    (genre : Str) (e2 : Errno) (hfolder : destinationFolder gfp ngfp genre ≠ [])
    (hname : plainName d.name = true)
    (hs : statLoc (ensureFolder w (destinationFolder gfp ngfp genre)).fs
      (resolve w.cwd (destinationFolder gfp ngfp genre) ++ [d.name]) = .error e2) :
    placeTrack gfp ngfp w path d genre =
      if e2 = .ENOENT then
        renameOutcome (osRename (ensureFolder w (destinationFolder gfp ngfp genre)) path
          (Join [destinationFolder gfp ngfp genre, d.name]))
      else (ensureFolder w (destinationFolder gfp ngfp genre), some (.sys e2)) := by
  unfold placeTrack
  simp only
  rw [dirFSStat_eq _ _ _ hfolder hname, ensureFolder_cwd, hs]
  cases e2 <;> simp [renameOutcome_eq]

/-- What follows a failed `os.MkdirAll` in the walk function: its error is
dropped and the placement goes on; the folder being missing, the check of the
name or the rename then fails, and that later error is what is returned. The
track stays where it was. -/
theorem walkFn_after_mkdir_failure (E : Env) (root : Str) (w : World) (path : Str)
    (d : DirEntry) (c : Nat) (g : Str) (e : Errno)
    (hname : plainName d.name = true) (hcand : isCandidate E.U path d = true)
    (hfile : osStat w path = .ok (.file c)) (htag : E.readGenre c = .ok g) :
    let fn := walkFn E (genresFolderPath root) (noGenreFolderPath root)
    let res := fn w path d none
    let folder := destinationFolder (genresFolderPath root) (noGenreFolderPath root)
      (capitalize E.U g)
    let dupFolder := Join [genresFolderPath root, Duplicates]
    (osStat w folder = .error .ENOENT → (osMkdirAll w folder).2 = some e →
      fsLookup res.1.fs (resolve w.cwd path) = some (.file c) ∧
      ∃ e1, res.2 = some (.sys e1) ∧
        (res.1.log = w.log ++ [.opened path none, .mkdirAll folder (some e),
            .rename path (Join [folder, d.name]) (some e1)] ∨
          (e1 ≠ .ENOENT ∧
            res.1.log = w.log ++ [.opened path none, .mkdirAll folder (some e)]))) ∧
    (∀ occ, osStat w (Join [folder, d.name]) = .ok occ →
      osStat w dupFolder = .error .ENOENT → (osMkdirAll w dupFolder).2 = some e →
      fsLookup res.1.fs (resolve w.cwd path) = some (.file c) ∧
      ∃ e1, res.2 = some (.sys e1) ∧
        res.1.log = w.log ++ [.opened path none, .mkdirAll dupFolder (some e),
          .rename path (Join [dupFolder, d.name]) (some e1)]) ∧
    (∀ e1, res.2 = some (.sys e1) →
      (∀ fuel, walkDir fn (fuel + 1) w path d = some res) ∧
      (∀ (walk : World → Str → DirEntry → Option (World × Option Err)) (parent : Str)
        (rest : List DirEntry), walk w (Join [parent, d.name]) d = some res →
        walkEntries walk parent w (d :: rest) = some res)) := by
  intro fn res folder dupFolder
  have hres : res = placeTrack (genresFolderPath root) (noGenreFolderPath root)
      ⟨w.fs, w.cwd, w.log ++ [.opened path none]⟩ path d (capitalize E.U g) :=
    walkFn_track E _ _ w path d c g hcand hfile htag
  have hfolder : folder ≠ [] := destinationFolder_ne_nil root (capitalize E.U g)
  have hdupFolder : dupFolder ≠ [] := Join_ne_nil _ _ (genresFolderPath_ne_nil root)
  have hpath : path ≠ [] := by
    intro h0; rw [h0] at hfile; simp [osStat] at hfile
  have hsrc : fsLookup w.fs (resolve w.cwd path) = some (.file c) :=
    statLoc_ok_lookup _ _ _ (by rw [← osStat_eq w path hpath]; exact hfile)
  refine ⟨fun hstat hmk => ?_, fun occ hocc hstat hmk => ?_, fun e1 he1 => ⟨fun fuel => ?_,
    fun walk parent rest hwalk => ?_⟩⟩
  · -- the bucket folder
    obtain ⟨hlog, hcwd, hkeep, hmiss⟩ := ensureFolder_fail
      ⟨w.fs, w.cwd, w.log ++ [.opened path none]⟩ folder e hfolder
      ((osStat_congr w _ _ rfl rfl).trans hstat) hmk
    have hstep := fun e2 hs => placeTrack_of_stat_error (genresFolderPath root)
      (noGenreFolderPath root) ⟨w.fs, w.cwd, w.log ++ [.opened path none]⟩ path d
      (capitalize E.U g) e2 hfolder hname hs
    rw [← hres] at hstep
    have hno : ∀ n, statLoc (ensureFolder ⟨w.fs, w.cwd, w.log ++ [.opened path none]⟩ folder).fs
        (resolve w.cwd folder ++ [d.name]) ≠ .ok n := by
      intro n hn
      obtain ⟨x, hx⟩ := statLoc_parent_of_ok _ _ _ _ hn
      exact hmiss x hx
    cases hs : statLoc (ensureFolder ⟨w.fs, w.cwd, w.log ++ [.opened path none]⟩ folder).fs
        (resolve w.cwd folder ++ [d.name]) with
    | ok n => exact absurd hs (hno n)
    | error e2 =>
      have hstep := hstep e2 hs
      by_cases h2 : e2 = .ENOENT
      · subst h2
        rw [if_pos rfl] at hstep
        obtain ⟨e1, he1⟩ := osRename_no_parent
          (ensureFolder ⟨w.fs, w.cwd, w.log ++ [.opened path none]⟩ folder) path
          (Join [folder, d.name]) (by
            rw [hcwd, resolve_Join _ _ _ hname]
            simpa using hmiss)
        rw [he1] at hstep
        rw [hstep]
        refine ⟨hkeep _ _ hsrc, e1, rfl, Or.inl ?_⟩
        simp [renameOutcome, hlog]
      · rw [if_neg h2] at hstep
        rw [hstep]
        refine ⟨hkeep _ _ hsrc, e2, rfl, Or.inr ⟨h2, ?_⟩⟩
        simp [hlog]
  · -- the Duplicate folder
    have hcol := placeTrack_collision (genresFolderPath root) (noGenreFolderPath root)
      ⟨w.fs, w.cwd, w.log ++ [.opened path none]⟩ path d (capitalize E.U g) occ hfolder hname
      ((osStat_congr w _ _ rfl rfl).trans hocc)
    rw [← hres] at hcol
    obtain ⟨hlog, hcwd, hkeep, hmiss⟩ := ensureFolder_fail
      ⟨w.fs, w.cwd, w.log ++ [.opened path none]⟩ dupFolder e hdupFolder
      ((osStat_congr w _ _ rfl rfl).trans hstat) hmk
    obtain ⟨e1, he1⟩ := osRename_no_parent
      (ensureFolder ⟨w.fs, w.cwd, w.log ++ [.opened path none]⟩ dupFolder) path
      (Join [dupFolder, d.name]) (by
        rw [hcwd, resolve_Join _ _ _ hname]
        simpa using hmiss)
    rw [he1] at hcol
    rw [hcol]
    refine ⟨hkeep _ _ hsrc, e1, rfl, ?_⟩
    simp [renameOutcome, hlog]
  · -- the walk function is called once on a file, and its error returned
    have hdir : d.isDir = false := by
      unfold isCandidate at hcand
      simp only [Bool.and_eq_true, Bool.not_eq_true'] at hcand
      exact hcand.1.1
    have hfn : fn w path d none = (res.1, some (.sys e1)) := Prod.ext rfl he1
    unfold walkDir
    rw [hfn]
    simp only [hdir, Bool.false_eq_true, and_false, if_false]
    rw [← he1]
  · unfold walkEntries
    rw [hwalk]
    have : res = (res.1, some (.sys e1)) := Prod.ext rfl he1
    rw [this]

theorem walkFn_prune (E : Env) (gfp ngfp : Str) (w : World) (path : Str) (d : DirEntry)
    (hdir : d.isDir = true) (hname : d.name = Genres) :
    walkFn E gfp ngfp w path d none = (w, some .SkipDir) := by
  simp [walkFn, hdir, hname]

theorem isCandidate_dir (U : UnicodeTables) (path : Str) (d : DirEntry) (hdir : d.isDir = true) :
    isCandidate U path d = false := by
  simp [isCandidate, hdir]

theorem walkFn_skip (E : Env) (gfp ngfp : Str) (w : World) (path : Str) (d : DirEntry)
    (hc : isCandidate E.U path d = false) (hg : ¬ (d.isDir = true ∧ d.name = Genres)) :
    walkFn E gfp ngfp w path d none = (w, none) := by
  unfold walkFn
  simp only [hc, Bool.false_eq_true, if_false]
  rw [if_neg (by simpa using hg)]

/-- A directory named `Genres` is not read: the walk returns at once. -/
theorem walkDir_prune (E : Env) (gfp ngfp : Str) (fuel : Nat) (w : World) (path : Str)
    (d : DirEntry) (hdir : d.isDir = true) (hname : d.name = Genres) :
    walkDir (walkFn E gfp ngfp) (fuel + 1) w path d = some (w, none) := by
  unfold walkDir
  rw [walkFn_prune E gfp ngfp w path d hdir hname]
  simp [hdir]

/-- An entry that is not a track and not a directory is passed over. -/
theorem walkDir_skip_file (E : Env) (gfp ngfp : Str) (fuel : Nat) (w : World) (path : Str)
    (d : DirEntry) (hdir : d.isDir = false) (hc : isCandidate E.U path d = false) :
    walkDir (walkFn E gfp ngfp) (fuel + 1) w path d = some (w, none) := by
  unfold walkDir
  rw [walkFn_skip E gfp ngfp w path d hc (by simp [hdir])]
  simp [hdir]

/-- A directory with another name is read and its entries are walked. -/
theorem walkDir_descend (E : Env) (gfp ngfp : Str) (fuel : Nat) (w : World) (path : Str)
    (d : DirEntry) (hdir : d.isDir = true) (hname : d.name ≠ Genres) :
    walkDir (walkFn E gfp ngfp) (fuel + 1) w path d =
      match osReadDir w path with
      | .ok dirs => walkEntries (walkDir (walkFn E gfp ngfp) fuel) path w dirs
      | .error e => some (w, some (.sys e)) := by
  unfold walkDir
  rw [walkFn_skip E gfp ngfp w path d (isCandidate_dir _ _ _ hdir) (by simp [hname])]
  simp only [hdir, Bool.not_true, Bool.false_eq_true, if_false]
  cases osReadDir w path with
  | ok dirs => rfl
  | error e => simp [walkFn]

theorem mem_children (fs : FS) (l : Loc) (d : DirEntry) (h : d ∈ children fs l) :
    plainName d.name = true ∧ ∃ n, fsLookup fs (l ++ [d.name]) = some n ∧ d.isDir = n.isDir := by
  unfold children at h
  rw [List.mem_filterMap] at h
  obtain ⟨k, _, hk⟩ := h
  cases hr : k.reverse with
  | nil => rw [hr] at hk; simp at hk
  | cons name parent =>
    rw [hr] at hk
    simp only at hk
    split at hk
    · rename_i hcond
      rw [Option.map_eq_some'] at hk
      obtain ⟨n, hn, hd⟩ := hk
      have hkeq : k = l ++ [name] := by
        have := congrArg List.reverse hr
        rw [List.reverse_reverse, List.reverse_cons, hcond.1] at this
        exact this
      rw [← hd]
      exact ⟨hcond.2, n, by rw [← hkeq]; exact hn, rfl⟩
    · simp at hk

/-- What `os.ReadDir` lists: plain names of entries that are in the directory. -/
theorem mem_readDirLoc (fs : FS) (l : Loc) (dirs : List DirEntry) (d : DirEntry)
    (h : readDirLoc fs l = .ok dirs) (hd : d ∈ dirs) :
    (∃ x, statLoc fs l = .ok (.dir x)) ∧ plainName d.name = true ∧
      ∃ n, fsLookup fs (l ++ [d.name]) = some n ∧ d.isDir = n.isDir := by
  unfold readDirLoc at h
  split at h
  · simp at h
  · simp at h
  · rename_i x hx
    simp only [Except.ok.injEq] at h
    rw [← h] at hd
    have := (List.perm_insertionSort _ _).mem_iff.1 hd
    exact ⟨⟨x, hx⟩, mem_children fs l d this⟩

theorem length_le_fsDepth (fs : FS) (l : Loc) (n : Node) (h : fsLookup fs l = some n) :
    l.length ≤ fsDepth fs := by
  induction fs with
  | nil => simp [fsLookup] at h
  | cons kn rest ih =>
    obtain ⟨k, m⟩ := kn
    simp only [fsLookup] at h
    simp only [fsDepth]
    split at h
    · rename_i hk
      rw [← hk]
      exact Nat.le_max_left _ _
    · exact (ih h).trans (Nat.le_max_right _ _)


/-! ## A library that is organised already -/

theorem mem_of_fsLookup (fs : FS) (l : Loc) (n : Node) (h : fsLookup fs l = some n) :
    (l, n) ∈ fs := by
  induction fs with
  | nil => simp [fsLookup] at h
  | cons kn rest ih =>
    obtain ⟨k, m⟩ := kn
    simp only [fsLookup] at h
    split at h
    · rename_i hk
      simp only [Option.some.injEq] at h
      simp [hk, h]
    · exact List.mem_cons_of_mem _ (ih h)

/-- In an organised library a file outside `<root>/Genres` does not have the
name of a track. -/
theorem organised_file (U : UnicodeTables) (fs : FS) (rootLoc l : Loc) (name : Str) (c : Nat)
    (horg : organised U fs rootLoc = true) (hl : fsLookup fs (l ++ [name]) = some (.file c))
    (hroot : rootLoc <+: l) (hout : ¬ (rootLoc ++ [Genres]) <+: (l ++ [name])) :
    isAudioName U name = false := by
  unfold organised at horg
  rw [List.all_eq_true] at horg
  have := horg _ (mem_of_fsLookup fs _ _ hl)
  simp only [List.reverse_append, List.reverse_cons, List.reverse_nil, List.nil_append,
    List.singleton_append, List.reverse_reverse, Bool.or_eq_true, Bool.not_eq_true',
    List.isPrefixOf_iff_prefix] at this
  rcases this with (h | h) | h
  · rw [← Bool.not_eq_true, List.isPrefixOf_iff_prefix] at h
    exact absurd hroot h
  · exact h
  · exact absurd h hout

theorem isAudioName_Genres (U : UnicodeTables) : isAudioName U Genres = false := rfl

/-- Below a directory that is not inside `<root>/Genres`, only the entry
`Genres` of the root itself is. -/
theorem prefix_genres_child (rootLoc l : Loc) (name : Str) (hroot : rootLoc <+: l)
    (hout : ¬ (rootLoc ++ [Genres]) <+: l)
    (h : (rootLoc ++ [Genres]) <+: (l ++ [name])) : l = rootLoc ∧ name = Genres := by
  rcases List.prefix_concat_iff.1 h with h1 | h1
  · have hlen := congrArg List.length h1
    simp at hlen
    obtain ⟨t, ht⟩ := hroot
    have htl : t = [] := by
      have := congrArg List.length ht
      simp at this
      exact List.length_eq_zero.1 (by omega)
    subst htl
    rw [List.append_nil] at ht
    subst ht
    simp at h1
    exact ⟨rfl, h1.symm⟩
  · exact absurd h1 hout

theorem walkEntries_all_none (walk : World → Str → DirEntry → Option (World × Option Err))
    (path : Str) (w : World) (ds : List DirEntry)
    (h : ∀ d1 ∈ ds, walk w (Join [path, d1.name]) d1 = some (w, none)) :
    walkEntries walk path w ds = some (w, none) := by
  induction ds with
  | nil => rfl
  | cons d1 rest ih =>
    unfold walkEntries
    rw [h d1 (by simp)]
    exact ih (fun d2 hd2 => h d2 (List.mem_cons_of_mem _ hd2))

theorem isCandidate_Join (U : UnicodeTables) (path : Str) (d : DirEntry)
    (hn : plainName d.name = true) (hdir : d.isDir = false) :
    isCandidate U (Join [path, d.name]) d = isAudioName U d.name := by
  unfold isCandidate isAudioName
  rw [Ext_Join _ _ hn, hdir]
  simp

/-- The walk of an organised library below an entry: with fuel for the depth
of the file system, nothing is opened or moved and no error arises. -/
theorem walkDir_organised (E : Env) (gfp ngfp : Str) (w : World) (rootLoc : Loc)
    (horg : organised E.U w.fs rootLoc = true) :
    ∀ (fuel : Nat) (path : Str) (d : DirEntry) (n : Node), path ≠ [] →
      rootLoc <+: resolve w.cwd path →
      fsLookup w.fs (resolve w.cwd path) = some n → d.isDir = n.isDir →
      (d.isDir = true → statLoc w.fs (resolve w.cwd path) = .ok n) →
      ((d.isDir = true ∧ d.name = Genres) ∨ (d.isDir = false ∧ isCandidate E.U path d = false) ∨
        (d.isDir = true ∧ d.name ≠ Genres ∧ ¬ (rootLoc ++ [Genres]) <+: resolve w.cwd path)) →
      fsDepth w.fs < fuel + (resolve w.cwd path).length →
      walkDir (walkFn E gfp ngfp) fuel w path d = some (w, none) := by
  intro fuel
  induction fuel with
  | zero =>
    intro path d n _ _ hl _ _ _ hfuel
    have := length_le_fsDepth _ _ _ hl
    omega
  | succ fuel ih =>
    intro path d n hpath hroot hl hisdir hstat hcase hfuel
    rcases hcase with ⟨hdir, hname⟩ | ⟨hdir, hc⟩ | ⟨hdir, hname, hout⟩
    · exact walkDir_prune E gfp ngfp fuel w path d hdir hname
    · exact walkDir_skip_file E gfp ngfp fuel w path d hdir hc
    · rw [walkDir_descend E gfp ngfp fuel w path d hdir hname]
      have hst := hstat hdir
      cases hrd : osReadDir w path with
      | error e =>
        exfalso
        unfold osReadDir at hrd
        rw [if_neg hpath] at hrd
        unfold readDirLoc at hrd
        rw [hst] at hrd
        cases n with
        | file c => simp [Node.isDir] at hisdir; rw [hdir] at hisdir; simp at hisdir
        | dir x => simp at hrd
      | ok dirs =>
        simp only
        apply walkEntries_all_none
        intro d1 hd1
        unfold osReadDir at hrd
        rw [if_neg hpath] at hrd
        obtain ⟨⟨x, hx⟩, hplain, n1, hn1, hd1dir⟩ := mem_readDirLoc _ _ _ d1 hrd hd1
        have hres : resolve w.cwd (Join [path, d1.name]) = resolve w.cwd path ++ [d1.name] :=
          resolve_Join _ _ _ hplain
        have hstat1 : statLoc w.fs (resolve w.cwd path ++ [d1.name]) = .ok n1 := by
          rw [statLoc_snoc, hx]
          simp [hn1]
        apply ih (Join [path, d1.name]) d1 n1 (Join_ne_nil _ _ hpath)
        · rw [hres]; exact hroot.trans (List.prefix_append _ _)
        · rw [hres]; exact hn1
        · exact hd1dir
        · intro _; rw [hres]; exact hstat1
        · rw [hres]
          by_cases hdd : d1.isDir = true
          · by_cases hg : d1.name = Genres
            · exact Or.inl ⟨hdd, hg⟩
            · refine Or.inr (Or.inr ⟨hdd, hg, fun hp => ?_⟩)
              exact hg (prefix_genres_child _ _ _ hroot hout hp).2
          · have hdf : d1.isDir = false := by simpa using hdd
            refine Or.inr (Or.inl ⟨hdf, ?_⟩)
            rw [isCandidate_Join _ _ _ hplain hdf]
            cases n1 with
            | dir y => rw [hdf] at hd1dir; simp [Node.isDir] at hd1dir
            | file c =>
              by_cases hp : (rootLoc ++ [Genres]) <+: (resolve w.cwd path ++ [d1.name])
              · rw [(prefix_genres_child _ _ _ hroot hout hp).2]
                exact isAudioName_Genres _
              · exact organised_file _ _ _ _ _ c horg hn1 hroot hp
        · rw [hres]
          simp only [List.length_append, List.length_singleton]
          omega

/-- Running the program on an organised library whose root is a directory,
with fuel for the depth of the file system, changes nothing. -/
theorem organise_organised (E : Env) (fuel : Nat) (w : World) (root : Str) (x : Bool)
    (hroot : osStat w root = .ok (.dir x))
    (horg : organised E.U w.fs (resolve w.cwd root) = true) (hfuel : fsDepth w.fs < fuel) :
    organise E fuel w root = some (w, none) := by
  have hne : root ≠ [] := by
    intro h0; rw [h0] at hroot; simp [osStat] at hroot
  have hst := hroot
  rw [osStat_eq _ _ hne] at hst
  unfold organise WalkDir
  rw [hroot]
  simp only [Node.isDir]
  rw [walkDir_organised E _ _ w (resolve w.cwd root) horg fuel root ⟨basename root, true⟩
    (.dir x) hne (List.prefix_refl _) (statLoc_ok_lookup _ _ _ hst) rfl (fun _ => hst)
    (by
      by_cases hg : basename root = Genres
      · exact Or.inl ⟨rfl, hg⟩
      · refine Or.inr (Or.inr ⟨rfl, hg, fun hp => ?_⟩)
        have := hp.length_le
        simp at this) (by omega)]


/-! ## What the walk takes as input -/

theorem ensureFolder_cwd_log (w : World) (f : Str) :
    (ensureFolder w f).cwd = w.cwd ∧ ∃ evs, (ensureFolder w f).log = w.log ++ evs ∧
      ∀ ev ∈ evs, ev.source = none := by
  refine ⟨ensureFolder_cwd w f, ?_⟩
  rcases ensureFolder_log w f with h | ⟨e, h⟩
  · exact ⟨[], by simpa using h, by simp⟩
  · exact ⟨_, h, by simp [Event.source]⟩

theorem placeTrack_cwd (gfp ngfp : Str) (w : World) (path : Str) (d : DirEntry) (genre : Str) :
    (placeTrack gfp ngfp w path d genre).1.cwd = w.cwd := by
  unfold placeTrack
  simp only
  split
  · rw [renameOutcome_eq]
    simp [renameOutcome, osRename_cwd, ensureFolder_cwd]
  · rw [renameOutcome_eq]
    simp [renameOutcome, osRename_cwd, ensureFolder_cwd]
  · simp [ensureFolder_cwd]

/-- What one call of the walk function records: calls whose input, if any, is
the path it was called on; nothing at all for an entry that is not a track. -/
theorem walkFn_events (E : Env) (gfp ngfp : Str) (w : World) (path : Str) (d : DirEntry)
    (err : Option Err) :
    (walkFn E gfp ngfp w path d err).1.cwd = w.cwd ∧
    ∃ evs, (walkFn E gfp ngfp w path d err).1.log = w.log ++ evs ∧
      (∀ ev ∈ evs, ∀ p, ev.source = some p → p = path) ∧
      (isCandidate E.U path d = false → evs = []) := by
  unfold walkFn
  cases err with
  | some e => exact ⟨rfl, [], by simp, by simp, fun _ => rfl⟩
  | none =>
    simp only
    split
    · exact ⟨rfl, [], by simp, by simp, fun _ => rfl⟩
    · split
      · rename_i hc
        unfold processTrack
        cases hs : osStat w path with
        | error e =>
          have h1 : osOpen w path
              = (⟨w.fs, w.cwd, w.log ++ [.opened path (some e)]⟩, .error e) := by
            unfold osOpen
            simp only [hs]
          rw [h1]
          exact ⟨rfl, [.opened path (some e)], rfl, by simp [Event.source],
            fun h => by rw [hc] at h; simp at h⟩
        | ok file =>
          have h1 : osOpen w path = (⟨w.fs, w.cwd, w.log ++ [.opened path none]⟩, .ok file) := by
            unfold osOpen
            simp only [hs]
          rw [h1]
          simp only
          cases ht : tagReadFrom E file with
          | error e =>
            exact ⟨rfl, [.opened path none], rfl, by simp [Event.source],
              fun h => by rw [hc] at h; simp at h⟩
          | ok g =>
            simp only
            obtain ⟨evs, hlog, hk⟩ := placeTrack_log gfp ngfp
              ⟨w.fs, w.cwd, w.log ++ [.opened path none]⟩ path d (capitalize E.U g)
            refine ⟨by rw [placeTrack_cwd], .opened path none :: evs, by rw [hlog]; simp, ?_,
              fun h => by rw [hc] at h; simp at h⟩
            intro ev hev p hp
            rcases List.mem_cons.1 hev with h | h
            · rw [h] at hp; simp [Event.source] at hp; exact hp.symm
            · rcases hk ev h with ⟨q, e, h1⟩ | ⟨e, h1⟩ | ⟨e, h1⟩
              · rw [h1] at hp; simp [Event.source] at hp
              · rw [h1] at hp; simp [Event.source] at hp; exact hp.symm
              · rw [h1] at hp; simp [Event.source] at hp; exact hp.symm
      · exact ⟨rfl, [], by simp, by simp, fun _ => rfl⟩

theorem isCandidate_Join_Genres (U : UnicodeTables) (path : Str) (d : DirEntry)
    (hname : d.name = Genres) : isCandidate U (Join [path, d.name]) d = false := by
  unfold isCandidate
  rw [hname, Ext_Join _ _ plainName_Genres]
  simp [Ext, extScan, Genres, ToLower]

theorem not_prefix_genres (rootLoc : Loc) (cs : List Str) (h : Genres ∉ cs) :
    ¬ (rootLoc ++ [Genres]) <+: (rootLoc ++ cs) := by
  intro hp
  rw [List.prefix_append_right_inj] at hp
  obtain ⟨t, ht⟩ := hp
  exact h (by rw [← ht]; simp)

/-- The walk below an entry whose location has no `Genres` on the way from the
root (or which is itself named `Genres` and is no track): every call recorded
takes its input from outside `<root>/Genres`. -/
theorem walkDir_inputs (E : Env) (gfp ngfp : Str) (cwd rootLoc : Loc) :
    ∀ (fuel : Nat) (w : World) (path : Str) (d : DirEntry) (w1 : World) (r : Option Err),
      w.cwd = cwd → path ≠ [] →
      (∃ cs, resolve cwd path = rootLoc ++ cs ∧
        (Genres ∉ cs ∨ (d.name = Genres ∧ isCandidate E.U path d = false))) →
      walkDir (walkFn E gfp ngfp) fuel w path d = some (w1, r) →
      w1.cwd = cwd ∧ ∃ evs, w1.log = w.log ++ evs ∧
        ∀ ev ∈ evs, ∀ p, ev.source = some p → ¬ (rootLoc ++ [Genres]) <+: resolve cwd p := by
  intro fuel
  induction fuel with
  | zero =>
    intro w path d w1 r _ _ _ h
    simp [walkDir] at h
  | succ fuel ih =>
    intro w path d w1 r hcwd hpath hinv h
    obtain ⟨cs, hcs, hcase⟩ := hinv
    obtain ⟨hfcwd, evs0, hflog, hfsrc, hfnone⟩ := walkFn_events E gfp ngfp w path d none
    have hsafe0 : ∀ ev ∈ evs0, ∀ p, ev.source = some p →
        ¬ (rootLoc ++ [Genres]) <+: resolve cwd p := by
      intro ev hev p hp
      rcases hcase with hno | ⟨_, hnc⟩
      · rw [hfsrc ev hev p hp, hcs]
        exact not_prefix_genres rootLoc cs hno
      · rw [hfnone hnc] at hev
        simp at hev
    unfold walkDir at h
    cases hfn : walkFn E gfp ngfp w path d none with
    | mk wf rf =>
      rw [hfn] at h hfcwd hflog
      simp only at hfcwd hflog
      cases rf with
      | some e =>
        simp only [Option.some.injEq, Prod.mk.injEq] at h
        rw [← h.1]
        exact ⟨hfcwd.trans hcwd, evs0, hflog, hsafe0⟩
      | none =>
        simp only at h
        split at h
        · simp only [Option.some.injEq, Prod.mk.injEq] at h
          rw [← h.1]
          exact ⟨hfcwd.trans hcwd, evs0, hflog, hsafe0⟩
        · rename_i hdir
          have hdir : d.isDir = true := by simpa using hdir
          -- a directory that is read is not named `Genres`
          have hno : Genres ∉ cs := by
            rcases hcase with hno | ⟨hname, _⟩
            · exact hno
            · rw [walkFn_prune E gfp ngfp w path d hdir hname] at hfn
              simp at hfn
          cases hrd : osReadDir wf path with
          | error e =>
            rw [hrd] at h
            simp only [walkFn, Option.some.injEq, Prod.mk.injEq] at h
            rw [← h.1]
            exact ⟨hfcwd.trans hcwd, evs0, hflog, hsafe0⟩
          | ok dirs =>
            rw [hrd] at h
            simp only at h
            unfold osReadDir at hrd
            rw [if_neg hpath] at hrd
            have hplain : ∀ d1 ∈ dirs, plainName d1.name = true :=
              fun d1 hd1 => (mem_readDirLoc _ _ _ d1 hrd hd1).2.1
            have hentries : ∀ (ds : List DirEntry) (w0 : World), w0.cwd = cwd →
                (∀ d1 ∈ ds, plainName d1.name = true) →
                walkEntries (walkDir (walkFn E gfp ngfp) fuel) path w0 ds = some (w1, r) →
                w1.cwd = cwd ∧ ∃ evs, w1.log = w0.log ++ evs ∧
                  ∀ ev ∈ evs, ∀ p, ev.source = some p →
                    ¬ (rootLoc ++ [Genres]) <+: resolve cwd p := by
              intro ds
              induction ds with
              | nil =>
                intro w0 h0 _ hw
                simp only [walkEntries, Option.some.injEq, Prod.mk.injEq] at hw
                rw [← hw.1]
                exact ⟨h0, [], by simp, by simp⟩
              | cons d1 rest ihds =>
                intro w0 h0 hpl hw
                unfold walkEntries at hw
                have hp1 := hpl d1 (by simp)
                have hinv1 : ∃ cs1, resolve cwd (Join [path, d1.name]) = rootLoc ++ cs1 ∧
                    (Genres ∉ cs1 ∨ (d1.name = Genres ∧
                      isCandidate E.U (Join [path, d1.name]) d1 = false)) := by
                  refine ⟨cs ++ [d1.name], by rw [resolve_Join _ _ _ hp1, hcs]; simp, ?_⟩
                  by_cases hg : d1.name = Genres
                  · exact Or.inr ⟨hg, isCandidate_Join_Genres _ _ _ hg⟩
                  · left
                    simp only [List.mem_append, List.mem_singleton, not_or]
                    exact ⟨hno, fun h => hg h.symm⟩
                cases hwd : walkDir (walkFn E gfp ngfp) fuel w0 (Join [path, d1.name]) d1 with
                | none => rw [hwd] at hw; simp at hw
                | some res =>
                  obtain ⟨wa, ra⟩ := res
                  obtain ⟨hacwd, evsa, halog, hasafe⟩ :=
                    ih w0 (Join [path, d1.name]) d1 wa ra h0 (Join_ne_nil _ _ hpath) hinv1 hwd
                  rw [hwd] at hw
                  cases ra with
                  | none =>
                    simp only at hw
                    obtain ⟨hbcwd, evsb, hblog, hbsafe⟩ :=
                      ihds wa hacwd (fun d2 hd2 => hpl d2 (List.mem_cons_of_mem _ hd2)) hw
                    refine ⟨hbcwd, evsa ++ evsb, by rw [hblog, halog]; simp, ?_⟩
                    intro ev hev
                    rcases List.mem_append.1 hev with h | h
                    · exact hasafe ev h
                    · exact hbsafe ev h
                  | some e =>
                    have hw1 : wa = w1 := by
                      cases e <;> simp at hw <;> exact hw.1
                    rw [← hw1]
                    exact ⟨hacwd, evsa, halog, hasafe⟩
            obtain ⟨hbcwd, evsb, hblog, hbsafe⟩ := hentries dirs wf (hfcwd.trans hcwd) hplain h
            refine ⟨hbcwd, evs0 ++ evsb, by rw [hblog, hflog]; simp, ?_⟩
            intro ev hev
            rcases List.mem_append.1 hev with h | h
            · exact hsafe0 ev h
            · exact hbsafe ev h

/-- Every call a run records takes its input from outside `<root>/Genres`. -/
theorem organise_inputs (E : Env) (fuel : Nat) (w : World) (root : Str) (w1 : World)
    (r : Option Err) (h : organise E fuel w root = some (w1, r)) :
    ∃ evs, w1.log = w.log ++ evs ∧ ∀ ev ∈ evs, ∀ p, ev.source = some p →
      ¬ (resolve w.cwd root ++ [Genres]) <+: resolve w.cwd p := by
  unfold organise WalkDir at h
  simp only at h
  cases hs : osStat w root with
  | error e =>
    rw [hs] at h
    simp only [walkFn, Option.some.injEq, Prod.mk.injEq] at h
    exact ⟨[], by rw [← h.1]; simp, by simp⟩
  | ok info =>
    have hne : root ≠ [] := by
      intro h0; rw [h0] at hs; simp [osStat] at hs
    rw [hs] at h
    simp only at h
    cases hwd : walkDir (walkFn E (genresFolderPath root) (noGenreFolderPath root)) fuel w root
        ⟨basename root, info.isDir⟩ with
    | none => rw [hwd] at h; simp at h
    | some res =>
      obtain ⟨wa, ra⟩ := res
      obtain ⟨_, evs, hlog, hsafe⟩ := walkDir_inputs E _ _ w.cwd (resolve w.cwd root) fuel w root
        ⟨basename root, info.isDir⟩ wa ra rfl hne ⟨[], by simp, Or.inl (by simp)⟩ hwd
      rw [hwd] at h
      have hw1 : wa = w1 := by
        cases ra with
        | none => simp at h; exact h.1
        | some e => cases e <;> simp at h <;> exact h.1
      rw [← hw1]
      exact ⟨evs, hlog, hsafe⟩


/-! ## The walk ends -/

theorem fsDepth_fsRemove (fs : FS) (l : Loc) : fsDepth (fsRemove fs l) ≤ fsDepth fs := by
  induction fs with
  | nil => simp [fsRemove, fsDepth]
  | cons kn rest ih =>
    obtain ⟨k, n⟩ := kn
    unfold fsRemove at ih ⊢
    rw [List.filter_cons]
    split
    · simp only [fsDepth]
      omega
    · simp only [fsDepth]
      omega

theorem fsDepth_fsSet (fs : FS) (l : Loc) (n : Node) :
    fsDepth (fsSet fs l n) ≤ max l.length (fsDepth fs) := by
  have := fsDepth_fsRemove fs l
  simp only [fsSet, fsDepth]
  omega

theorem fsDepth_mkdirLoc (fs : FS) (l : Loc) :
    fsDepth (mkdirLoc fs l).1 ≤ max l.length (fsDepth fs) := by
  unfold mkdirLoc
  split
  · simp
  · simp
  · split
    · simp
    · split
      · exact fsDepth_fsSet fs l _
      · simp

theorem fsDepth_mkdirAllRev (fs : FS) (rl : List Str) :
    fsDepth (mkdirAllRev fs rl).1 ≤ max rl.length (fsDepth fs) := by
  induction rl generalizing fs with
  | nil =>
    unfold mkdirAllRev
    split
    · simp
    · simp
    · simpa using fsDepth_mkdirLoc fs []
  | cons c parent ih =>
    unfold mkdirAllRev
    split
    · simp
    · simp
    · have hpar := ih fs
      split
      · rename_i fs1 e heq
        rw [heq] at hpar
        simp only [List.length_cons]
        simp only at hpar
        omega
      · rename_i fs1 heq
        rw [heq] at hpar
        simp only at hpar
        have hmk := fsDepth_mkdirLoc fs1 (c :: parent).reverse
        simp only [List.length_reverse, List.length_cons] at hmk
        split
        · rename_i fs2 heq2
          rw [heq2] at hmk
          simp only [List.length_cons]
          simp only at hmk
          omega
        · rename_i fs2 e heq2
          rw [heq2] at hmk
          simp only at hmk
          split <;> simp only [List.length_cons] <;> omega

theorem fsDepth_ensureFolder (w : World) (f : Str) :
    fsDepth (ensureFolder w f).fs ≤ max (resolve w.cwd f).length (fsDepth w.fs) := by
  unfold ensureFolder
  split
  · unfold osMkdirAll
    simp only
    split
    · simp
    · have := fsDepth_mkdirAllRev w.fs (resolve w.cwd f).reverse
      simpa [mkdirAllLoc] using this
  · simp

theorem fsDepth_renameLoc_file (fs : FS) (src dst : Loc) (c : Nat)
    (hsrc : statLoc fs src = .ok (.file c)) :
    fsDepth (renameLoc fs src dst).1 ≤ max dst.length (fsDepth fs) := by
  have hset : fsDepth (fsSet (fsRemove fs src) dst (.file c)) ≤ max dst.length (fsDepth fs) := by
    have h1 := fsDepth_fsSet (fsRemove fs src) dst (.file c)
    have h2 := fsDepth_fsRemove fs src
    omega
  unfold renameLoc
  rw [hsrc]
  simp only
  split
  · simp
  · simp
  · split
    · simp
    · split
      · simp
      · split
        · split
          · split
            · rename_i hc _
              simp only [Node.file.injEq] at hc
              subst hc
              exact hset
            · rename_i hc _
              simp only [Node.file.injEq] at hc
              subst hc
              exact hset
            · simp
            · rename_i hh _
              simp at hh
            · rename_i hh _
              simp at hh
          · simp
        · simp

theorem Bounded_ensureFolder (B : Nat) (C : List Nat) (w : World) (f : Str)
    (hb : Bounded B C w.fs) (hf : (resolve w.cwd f).length ≤ B) :
    Bounded B C (ensureFolder w f).fs := by
  refine ⟨?_, fun l c hl => ?_⟩
  · have := fsDepth_ensureFolder w f
    have := hb.1
    omega
  · rcases ensureFolder_grows w f l with h | ⟨_, _, h⟩
    · rw [h] at hl; exact hb.2 l c hl
    · rw [h] at hl; simp at hl

theorem Bounded_osRename (B : Nat) (C : List Nat) (w : World) (a b : Str) (c : Nat)
    (hb : Bounded B C w.fs) (hsrc : osStat w a = .ok (.file c))
    (hlen : (resolve w.cwd b).length ≤ B) : Bounded B C (osRename w a b).1.fs := by
  have ha : a ≠ [] := by
    intro h; rw [h] at hsrc; simp [osStat] at hsrc
  have hc : c ∈ C := hb.2 _ c (statLoc_ok_lookup _ _ _ (by rw [← osStat_eq w a ha]; exact hsrc))
  by_cases hbn : b = []
  · simp only [osRename, hbn, or_true, if_true]
    exact hb
  · have hren := osRename_file w a b c hsrc hbn
    refine ⟨?_, fun l c1 hl => ?_⟩
    · have h1 := hsrc
      rw [osStat_eq _ _ ha] at h1
      have := fsDepth_renameLoc_file w.fs (resolve w.cwd a) (resolve w.cwd b) c h1
      have := hb.1
      simp only [osRename, ha, hbn, or_self, if_false]
      omega
    · cases he : (osRename w a b).2 with
      | none =>
        rw [(hren.2 he).2] at hl
        split at hl
        · simp only [Option.some.injEq, Node.file.injEq] at hl
          rw [← hl]; exact hc
        · split at hl
          · simp at hl
          · exact hb.2 l c1 hl
      | some e =>
        rw [hren.1 (by simp [he])] at hl
        exact hb.2 l c1 hl

/-- Placing a track keeps the file system within a bound that allows for an
entry of its bucket folder and one of the Duplicate folder. -/
theorem Bounded_placeTrack (B : Nat) (C : List Nat) (gfp ngfp : Str) (w : World) (path : Str)
    (d : DirEntry) (genre : Str) (c : Nat) (hb : Bounded B C w.fs)
    (hsrc : osStat w path = .ok (.file c)) (hname : plainName d.name = true)
    (hfolder : (resolve w.cwd (destinationFolder gfp ngfp genre)).length + 1 ≤ B)
    (hdup : (resolve w.cwd (Join [gfp, Duplicates])).length + 1 ≤ B) :
    Bounded B C (placeTrack gfp ngfp w path d genre).1.fs := by
  have hb1 := Bounded_ensureFolder B C w (destinationFolder gfp ngfp genre) hb (by omega)
  have hsrc1 := osStat_ensureFolder w (destinationFolder gfp ngfp genre) path _ hsrc
  unfold placeTrack
  simp only
  split
  · rw [renameOutcome_eq]
    simp only [renameOutcome]
    have hb2 := Bounded_ensureFolder B C _ (Join [gfp, Duplicates]) hb1
      (by rw [ensureFolder_cwd]; omega)
    have hsrc2 := osStat_ensureFolder _ (Join [gfp, Duplicates]) path _ hsrc1
    exact Bounded_osRename B C _ path _ c hb2 hsrc2 (by
      rw [ensureFolder_cwd, ensureFolder_cwd, resolve_Join _ _ _ hname]
      simpa using hdup)
  · rw [renameOutcome_eq]
    simp only [renameOutcome]
    exact Bounded_osRename B C _ path _ c hb1 hsrc1 (by
      rw [ensureFolder_cwd, resolve_Join _ _ _ hname]
      simpa using hfolder)
  · exact hb1

theorem bucketDepth_le (E : Env) (gfp ngfp : Str) (cwd : Loc) (C : List Nat) (c : Nat)
    (hc : c ∈ C) : bucketDepth E gfp ngfp cwd c ≤ (C.map (bucketDepth E gfp ngfp cwd)).foldr max 0 := by
  induction C with
  | nil => simp at hc
  | cons a rest ih =>
    simp only [List.map_cons, List.foldr_cons]
    rcases List.mem_cons.1 hc with h | h
    · rw [h]; exact Nat.le_max_left _ _
    · exact (ih h).trans (Nat.le_max_right _ _)

/-- One call of the walk function keeps the file system within the bound. -/
theorem Bounded_walkFn (E : Env) (gfp ngfp : Str) (B : Nat) (C : List Nat) (w : World)
    (path : Str) (d : DirEntry) (err : Option Err) (hb : Bounded B C w.fs)
    (hname : plainName d.name = true ∨ isCandidate E.U path d = false)
    (hC : ∀ c ∈ C, bucketDepth E gfp ngfp w.cwd c + 1 ≤ B)
    (hdup : (resolve w.cwd (Join [gfp, Duplicates])).length + 1 ≤ B) :
    Bounded B C (walkFn E gfp ngfp w path d err).1.fs := by
  unfold walkFn
  cases err with
  | some e => exact hb
  | none =>
    simp only
    split
    · exact hb
    · split
      · rename_i hc
        have hpl : plainName d.name = true := by
          rcases hname with h | h
          · exact h
          · rw [hc] at h; simp at h
        unfold processTrack
        cases hs : osStat w path with
        | error e =>
          have h1 : osOpen w path
              = (⟨w.fs, w.cwd, w.log ++ [.opened path (some e)]⟩, .error e) := by
            unfold osOpen
            simp only [hs]
          rw [h1]
          exact hb
        | ok file =>
          have h1 : osOpen w path = (⟨w.fs, w.cwd, w.log ++ [.opened path none]⟩, .ok file) := by
            unfold osOpen
            simp only [hs]
          rw [h1]
          simp only
          cases file with
          | dir x => exact hb
          | file c =>
            have hpath : path ≠ [] := by
              intro h0; rw [h0] at hs; simp [osStat] at hs
            have hcC : c ∈ C :=
              hb.2 _ c (statLoc_ok_lookup _ _ _ (by rw [← osStat_eq w path hpath]; exact hs))
            cases hg : E.readGenre c with
            | error code => simp only [tagReadFrom, hg]; exact hb
            | ok g =>
              simp only [tagReadFrom, hg]
              have hdepth := hC c hcC
              simp only [bucketDepth, hg] at hdepth
              exact Bounded_placeTrack B C gfp ngfp _ path d _ c hb
                ((osStat_congr w _ _ rfl rfl).trans hs) hpl hdepth hdup
      · exact hb

/-- With fuel for the bound on the depth, the walk below an entry returns. -/
theorem walkDir_total (E : Env) (gfp ngfp : Str) (cwd : Loc) (B : Nat) (C : List Nat)
    (hC : ∀ c ∈ C, bucketDepth E gfp ngfp cwd c + 1 ≤ B)
    (hdup : (resolve cwd (Join [gfp, Duplicates])).length + 1 ≤ B) :
    ∀ (fuel : Nat) (w : World) (path : Str) (d : DirEntry), w.cwd = cwd → Bounded B C w.fs →
      path ≠ [] → (plainName d.name = true ∨ isCandidate E.U path d = false) →
      (resolve cwd path).length ≤ B → B < fuel + (resolve cwd path).length →
      ∃ w1 r, walkDir (walkFn E gfp ngfp) fuel w path d = some (w1, r) ∧ w1.cwd = cwd ∧
        Bounded B C w1.fs := by
  intro fuel
  induction fuel with
  | zero =>
    intro w path d _ _ _ _ h1 h2
    omega
  | succ fuel ih =>
    intro w path d hcwd hb hpath hname hlen hfuel
    have hbf := Bounded_walkFn E gfp ngfp B C w path d none hb hname
      (by rw [hcwd]; exact hC) (by rw [hcwd]; exact hdup)
    have hcf := (walkFn_events E gfp ngfp w path d none).1
    unfold walkDir
    cases hfn : walkFn E gfp ngfp w path d none with
    | mk wf rf =>
      rw [hfn] at hbf hcf
      simp only at hbf hcf
      cases rf with
      | some e => exact ⟨wf, _, rfl, hcf.trans hcwd, hbf⟩
      | none =>
        simp only
        split
        · exact ⟨wf, _, rfl, hcf.trans hcwd, hbf⟩
        · cases hrd : osReadDir wf path with
          | error e =>
            simp only [walkFn]
            exact ⟨wf, _, rfl, hcf.trans hcwd, hbf⟩
          | ok dirs =>
            simp only
            unfold osReadDir at hrd
            rw [if_neg hpath, hcf, hcwd] at hrd
            have hprop : ∀ d1 ∈ dirs, plainName d1.name = true ∧
                (resolve cwd path).length + 1 ≤ B := by
              intro d1 hd1
              obtain ⟨_, hpl, n1, hn1, _⟩ := mem_readDirLoc _ _ _ d1 hrd hd1
              have := length_le_fsDepth _ _ _ hn1
              simp only [List.length_append, List.length_singleton] at this
              have := hbf.1
              exact ⟨hpl, by omega⟩
            have hentries : ∀ (ds : List DirEntry) (w0 : World), w0.cwd = cwd →
                Bounded B C w0.fs → (∀ d1 ∈ ds, plainName d1.name = true ∧
                  (resolve cwd path).length + 1 ≤ B) →
                ∃ w1 r, walkEntries (walkDir (walkFn E gfp ngfp) fuel) path w0 ds = some (w1, r) ∧
                  w1.cwd = cwd ∧ Bounded B C w1.fs := by
              intro ds
              induction ds with
              | nil =>
                intro w0 h0 hb0 _
                exact ⟨w0, none, rfl, h0, hb0⟩
              | cons d1 rest ihds =>
                intro w0 h0 hb0 hp
                obtain ⟨hpl, hl1⟩ := hp d1 (by simp)
                have hres : resolve cwd (Join [path, d1.name]) = resolve cwd path ++ [d1.name] :=
                  resolve_Join _ _ _ hpl
                obtain ⟨wa, ra, hwa, hca, hba⟩ := ih w0 (Join [path, d1.name]) d1 h0 hb0
                  (Join_ne_nil _ _ hpath) (Or.inl hpl) (by rw [hres]; simpa using hl1)
                  (by rw [hres]; simp only [List.length_append, List.length_singleton]; omega)
                unfold walkEntries
                rw [hwa]
                cases ra with
                | none =>
                  simp only
                  exact ihds wa hca hba (fun d2 hd2 => hp d2 (List.mem_cons_of_mem _ hd2))
                | some e =>
                  cases e <;> exact ⟨wa, _, rfl, hca, hba⟩
            exact hentries dirs wf (hcf.trans hcwd) hbf hprop

theorem fsLookup_file_mem_fsContents (fs : FS) (l : Loc) (c : Nat)
    (h : fsLookup fs l = some (.file c)) : c ∈ fsContents fs := by
  unfold fsContents
  rw [List.mem_filterMap]
  exact ⟨(l, .file c), mem_of_fsLookup fs l _ h, rfl⟩

/-- Every run ends: with fuel beyond the bound on the depth, the walk of the
library returns. -/
theorem organise_total (E : Env) (w : World) (root : Str) (fuel : Nat)
    (hfuel : depthBound E (genresFolderPath root) (noGenreFolderPath root) w < fuel) :
    ∃ w1 r, organise E fuel w root = some (w1, r) := by
  unfold organise WalkDir
  simp only
  cases hs : osStat w root with
  | error e =>
    simp only [walkFn]
    exact ⟨_, _, rfl⟩
  | ok info =>
    simp only
    have hne : root ≠ [] := by
      intro h0; rw [h0] at hs; simp [osStat] at hs
    have hst := hs
    rw [osStat_eq _ _ hne] at hst
    have hwd : ∃ w1 r, walkDir (walkFn E (genresFolderPath root) (noGenreFolderPath root)) fuel w
        root ⟨basename root, info.isDir⟩ = some (w1, r) := by
      cases hinfo : info.isDir with
      | false =>
        -- a root that is no directory is handed to the walk function and that is all
        obtain ⟨k, hk⟩ : ∃ k, fuel = k + 1 := ⟨fuel - 1, by omega⟩
        rw [hk]
        unfold walkDir
        cases hfn : walkFn E (genresFolderPath root) (noGenreFolderPath root) w root
            ⟨basename root, false⟩ none with
        | mk wf rf =>
          cases rf with
          | some e => exact ⟨_, _, rfl⟩
          | none => exact ⟨_, _, rfl⟩
      | true =>
        unfold depthBound at hfuel
        obtain ⟨w1, r, h, _, _⟩ := walkDir_total E (genresFolderPath root)
          (noGenreFolderPath root) w.cwd
          (depthBound E (genresFolderPath root) (noGenreFolderPath root) w) (fsContents w.fs)
          (fun c hc => by
            have := bucketDepth_le E (genresFolderPath root) (noGenreFolderPath root) w.cwd
              _ c hc
            unfold depthBound
            omega)
          (by unfold depthBound; omega)
          fuel w root ⟨basename root, true⟩ rfl
          ⟨by unfold depthBound; omega, fun l c hl => fsLookup_file_mem_fsContents _ l c hl⟩
          hne (Or.inr (isCandidate_dir _ _ _ rfl))
          (by
            have := length_le_fsDepth _ _ _ (statLoc_ok_lookup _ _ _ hst)
            unfold depthBound
            omega)
          (by unfold depthBound; omega)
        exact ⟨w1, r, h⟩
    obtain ⟨w1, r, h⟩ := hwd
    rw [h]
    cases r with
    | none => exact ⟨_, _, rfl⟩
    | some e => cases e <;> exact ⟨_, _, rfl⟩


/-! ## The reserved folder -/

/-- C5: a run returns once its fuel exceeds the bound on the depth of the file
system; whatever it records as opened or renamed was taken from a path outside
`<root>/Genres`, so no file below that folder is an input of the run; and a run
on a library that is organised already (root a directory, every file with the
name of a track below `<root>/Genres`), given fuel for the depth of the file
system, ends without error and leaves the file system and the record of calls
as they were: nothing is moved. -/
theorem genres_subtree_not_input (E : Env) (fuel : Nat) (w : World) (root : Str) :
    (depthBound E (genresFolderPath root) (noGenreFolderPath root) w < fuel →
      ∃ w1 r, organise E fuel w root = some (w1, r)) ∧
    (∀ w1 r, organise E fuel w root = some (w1, r) →
      ∃ evs, w1.log = w.log ++ evs ∧ ∀ ev ∈ evs, ∀ p, ev.source = some p →
        ¬ (resolve w.cwd root ++ [Genres]) <+: resolve w.cwd p) ∧
    (∀ x, osStat w root = .ok (.dir x) → organised E.U w.fs (resolve w.cwd root) = true →
      fsDepth w.fs < fuel → organise E fuel w root = some (w, none)) :=
  ⟨fun hfuel => organise_total E w root fuel hfuel,
    fun w1 r h => organise_inputs E fuel w root w1 r h,
    fun x hroot horg hfuel => organise_organised E fuel w root x hroot horg hfuel⟩

/-- C5 on the organised library `/m`: the run changes nothing; and on a
library with a track in `/m/Genres/Rock` and one of the same name in `/m`, the
run returns, the first is where it was and the second in the Duplicate
folder. -/
theorem genres_subtree_not_input_witness :
    organise demoEnv 5 organisedWorld demoRoot = some (organisedWorld, none) ∧
      (∃ w1 r, organise demoEnv 5 (occupiedWorld 1 Rock) demoRoot = some (w1, r)) ∧
      (organise demoEnv 5 (occupiedWorld 1 Rock) demoRoot).map (fun res =>
          (fsLookup res.1.fs [m, Genres, Rock, aMp3],
            fsLookup res.1.fs [m, Genres, Duplicates, aMp3], res.1.log))
        = some (some (.file 7), some (.file 1),
            [.opened "/m/a.mp3".toList none, .mkdirAll "/m/Genres/Duplicate".toList none,
              .rename "/m/a.mp3".toList "/m/Genres/Duplicate/a.mp3".toList none]) :=
  ⟨(genres_subtree_not_input demoEnv 5 organisedWorld demoRoot).2.2 true rfl (by decide)
      (by decide),
    (genres_subtree_not_input demoEnv 5 (occupiedWorld 1 Rock) demoRoot).1 (by decide),
    by decide⟩

/-- C10: a directory the walk meets under the name `Genres`, at any depth, is
not read, and the walk goes on with the entry after it; a directory of any
other name, `genres` included, is read and its entries are walked; and when the
base name of the library root is `Genres`, the run ends at once with nothing
opened or moved. -/
theorem genres_pruned_by_name (E : Env) (gfp ngfp : Str) (fuel : Nat) (w : World) (path : Str)
    (d : DirEntry) (hdir : d.isDir = true) :
    (d.name = Genres →
      walkDir (walkFn E gfp ngfp) (fuel + 1) w path d = some (w, none) ∧
      ∀ (parent : Str) (rest : List DirEntry), path = Join [parent, d.name] →
        walkEntries (walkDir (walkFn E gfp ngfp) (fuel + 1)) parent w (d :: rest) =
          walkEntries (walkDir (walkFn E gfp ngfp) (fuel + 1)) parent w rest) ∧
    (d.name ≠ Genres →
      walkDir (walkFn E gfp ngfp) (fuel + 1) w path d =
        match osReadDir w path with
        | .ok dirs => walkEntries (walkDir (walkFn E gfp ngfp) fuel) path w dirs
        | .error e => some (w, some (.sys e))) ∧
    "genres".toList ≠ Genres ∧
    (∀ (root : Str) (x : Bool), basename root = Genres → osStat w root = .ok (.dir x) →
      organise E (fuel + 1) w root = some (w, none)) := by
  refine ⟨fun hname => ⟨walkDir_prune E gfp ngfp fuel w path d hdir hname,
    fun parent rest hpath => ?_⟩, fun hname => walkDir_descend E gfp ngfp fuel w path d hdir hname,
    by decide, fun root x hbase hroot => ?_⟩
  · have := walkDir_prune E gfp ngfp fuel w path d hdir hname
    rw [hpath] at this
    conv_lhs => unfold walkEntries
    rw [this]
  · unfold organise WalkDir
    rw [hroot]
    simp only [Node.isDir]
    rw [walkDir_prune E _ _ fuel w root ⟨basename root, true⟩ rfl hbase]

/-- C10 on a folder `Genres` inside `/m/Artist` and on a library `/Genres`:
neither is read; and in a run on `/m`, the track in `/m/Artist/Genres` stays
while the one in `/m/genres` is moved to `/m/Genres/Rock`. -/
theorem genres_pruned_by_name_witness :
    walkDir demoFn 1 nestedWorld "/m/Artist/Genres".toList ⟨Genres, true⟩
        = some (nestedWorld, none) ∧
      organise demoEnv 1 genresRootWorld "/Genres".toList = some (genresRootWorld, none) ∧
      (organise demoEnv 4 nestedWorld demoRoot).map (fun res =>
          (fsLookup res.1.fs [m, "Artist".toList, Genres, aMp3],
            fsLookup res.1.fs [m, "genres".toList, aMp3],
            fsLookup res.1.fs [m, Genres, Rock, aMp3], res.2))
        = some (some (.file 1), none, some (.file 1), none) :=
  ⟨((genres_pruned_by_name demoEnv (genresFolderPath demoRoot) (noGenreFolderPath demoRoot) 0
      nestedWorld "/m/Artist/Genres".toList ⟨Genres, true⟩ rfl).1 rfl).1,
    (genres_pruned_by_name demoEnv (genresFolderPath demoRoot) (noGenreFolderPath demoRoot) 0
      genresRootWorld "/Genres".toList ⟨Genres, true⟩ rfl).2.2.2 "/Genres".toList true
      (by decide) rfl,
    by decide⟩


end GroupByGenre
